import Mathlib

open Filter Topology

/-!
Verification of the Aiyagari policy-function-iteration solver
(Aiyagari_PFI_Small.py) against its specification.

The source program computes with 64-bit floats; this development embeds the
reachable arithmetic in exact rationals (and casts to the reals where the
analysis needs completeness).  Model parameters that the source fixes as
integers (the CRRA coefficient sigma = 2, the grid curvature curv = 3) are
embedded with integer exponents, so every definition is executable.
-/

namespace Aiyagari

/-- The clamping constant used by the marginal-utility helpers
(1e-8 in the source). -/
def eps : ℚ := 1 / 100000000

/-- Marginal utility of consumption, clamped below at eps before the power
is taken.  Source: np.fmax(c, eps) ** (-sigma).  The CRRA coefficient sigma
is a positive integer (2 in the model). -/
def u_prime (c : ℚ) (sigma : ℕ) : ℚ := (max c eps) ^ (-(sigma : ℤ))

/-- Total indexing helper for grid vectors: g[k] when k is in bounds,
0 otherwise (the out-of-range value is never used under the theorems'
hypotheses). -/
def idx {n : ℕ} (g : Fin n → ℚ) (k : ℕ) : ℚ :=
  if h : k < n then g ⟨k, h⟩ else 0

/-- make_grid: exponential grid of degree curv.  The source sets
grd[0] = min, grd[num-1] = max (in that order, so for num = 1 the single
entry holds max) and fills the interior with
min + (max-min)*((i)/(num-1))**curv. -/
def make_grid (min_val max_val : ℚ) (num : ℕ) (curv : ℕ) : Fin num → ℚ :=
  fun i =>
    if i.val = num - 1 then max_val
    else if i.val = 0 then min_val
    else min_val + (max_val - min_val) * ((i.val : ℚ) / ((num : ℚ) - 1)) ^ curv

/-- np.sum(grid <= x): number of grid points not exceeding x. -/
def count_le {n : ℕ} (g : Fin n → ℚ) (x : ℚ) : ℕ :=
  (Finset.univ.filter (fun i => g i ≤ x)).card

/-- np.interp with a strictly increasing node vector xp: flat extrapolation
outside [xp[0], xp[n-1]], piecewise-linear inside, exact at the nodes. -/
def np_interp {n : ℕ} (xp fp : Fin n → ℚ) (x : ℚ) : ℚ :=
  if n = 0 then 0
  else if x ≤ idx xp 0 then idx fp 0
  else if idx xp (n - 1) ≤ x then idx fp (n - 1)
  else
    let j := count_le xp x
    idx fp (j - 1) +
      (x - idx xp (j - 1)) * (idx fp j - idx fp (j - 1)) /
        (idx xp j - idx xp (j - 1))

/-- np.sign restricted to rational arguments. -/
def qsign (x : ℚ) : ℤ := if 0 < x then 1 else if x < 0 then -1 else 0

/-- The parameter pack params_eer handed to euler_eq_residual by solve_hh. -/
structure ParamsEER (Nz Na : ℕ) where
  a : ℚ
  z : ℚ
  pol_sav_old : Fin Nz → Fin Na → ℚ
  i_z : Fin Nz
  r : ℚ
  w : ℚ
  beta : ℚ
  sigma : ℕ
  pi : Fin Nz → Fin Nz → ℚ
  grid_z : Fin Nz → ℚ
  grid_a : Fin Na → ℚ

/-- euler_eq_residual: difference between the two sides of the Euler
equation, with next-period savings read off the old policy by linear
interpolation. -/
def euler_eq_residual {Nz Na : ℕ} (a_plus : ℚ) (p : ParamsEER Nz Na) : ℚ :=
  let c := (1 + p.r) * p.a + p.w * p.z - a_plus
  let avg_marg_u_plus := ∑ i_zz : Fin Nz, p.pi p.i_z i_zz *
    u_prime ((1 + p.r) * a_plus + p.w * p.grid_z i_zz -
      np_interp p.grid_a (p.pol_sav_old i_zz) a_plus) p.sigma
  u_prime c p.sigma - (1 + p.r) * p.beta * avg_marg_u_plus

/-- Modelled from the library contract of the bracketing root-finder
(quantecon brentq, scipy port) invoked by solve_hh: the initial interval
check raises when f(a) and f(b) have the same nonzero sign, and returns an
endpoint immediately when f vanishes there (with b taking precedence when
both endpoint values vanish); the Brent iteration for the genuine
sign-change case is abstracted by the parameter interior.  none models the
raised exception. -/
def brentq_model (interior : (ℚ → ℚ) → ℚ → ℚ → ℚ)
    (f : ℚ → ℚ) (a b : ℚ) : Option ℚ :=
  if 0 < f a * f b then none
  else if f b = 0 then some b
  else if f a = 0 then some a
  else some (interior f a b)

/-- The per-grid-point body of solve_hh's policy update: corner check via
the sign of the Euler residual at the lower bound, the same-sign guard, then
the bracketing root-finder on [grid_a[0], (1+r)a + wz].  none models the
raised no-interior-root exception. -/
def pfi_point {Nz Na : ℕ} (interior : (ℚ → ℚ) → ℚ → ℚ → ℚ)
    (beta : ℚ) (pi : Fin Nz → Fin Nz → ℚ) (grid_a : Fin Na → ℚ)
    (grid_z : Fin Nz → ℚ) (sigma : ℕ) (r w : ℚ)
    (pol_sav_old : Fin Nz → Fin Na → ℚ) (i_z : Fin Nz) (i_a : Fin Na) :
    Option ℚ :=
  let lb_aplus := idx grid_a 0
  let ub_aplus := (1 + r) * grid_a i_a + w * grid_z i_z
  let params : ParamsEER Nz Na :=
    ⟨grid_a i_a, grid_z i_z, pol_sav_old, i_z, r, w, beta, sigma, pi,
      grid_z, grid_a⟩
  let eulersign_lb := qsign (euler_eq_residual lb_aplus params)
  if eulersign_lb = 1 then some lb_aplus
  else
    let eulersign_ub := qsign (euler_eq_residual ub_aplus params)
    if eulersign_lb * eulersign_ub = 1 then none
    else
      brentq_model interior (fun x => euler_eq_residual x params)
        lb_aplus ub_aplus

/-- The model's income transition matrix pi = [[3/4, 1/4], [1/4, 3/4]]. -/
def pi_model : Fin 2 → Fin 2 → ℚ := ![![3/4, 1/4], ![1/4, 3/4]]

/-- The model's productivity states after mean-one normalization: the
stationary distribution of pi_model is (1/2, 1/2), the average of
[0.5, 1.5] is 1, so the grid is unchanged. -/
def grid_z_model : Fin 2 → ℚ := ![1/2, 3/2]

/-- The model's asset grid: make_grid(a_min = 0, a_max = 100, Na = 200,
curv = 3). -/
def grid_a_model : Fin 200 → ℚ := make_grid 0 100 200 3

/-- The model's discount factor beta = 0.96. -/
def beta_model : ℚ := 24/25

/-- A savings-policy iterate engineered so that the Euler residual vanishes
at both ends of the search bracket for the first grid point of the low
income state. -/
def pol_ce5 : Fin 2 → Fin 200 → ℚ :=
  fun z a => if a.val = 0 then (if z.val = 0 then 0 else 2) else 10

/-- A concrete parameter pack used to witness the residual bound. -/
def params_w10 : ParamsEER 2 1 :=
  ⟨0, grid_z_model 0, (fun _ _ => 0), 0, 1/50, 1, beta_model, 2, pi_model,
    grid_z_model, (fun _ : Fin 1 => 0)⟩

/-- Final state of solve_model's equilibrium loop: last interest-rate guess,
value of the loop counter when the loop ended, and whether the tolerance
test was met. -/
structure LoopResult where
  r_guess : ℚ
  it : ℕ
  converged : Bool
  deriving Repr, DecidableEq

/-- The comparison np.abs(diff) > np.abs(diff_old), where diff_old = np.inf
is modelled by none: nothing exceeds infinity. -/
def grew_vs (diff_old : Option ℚ) (diff : ℚ) : Bool :=
  match diff_old with
  | none => false
  | some v => |v| < |diff|

/-- The iteration of solve_model's for-loop over the remaining iteration
budget rem.  Mirrors the source exactly: the body reassigns diff_old to
np.inf (none) before comparing, so the carried value from the previous
iteration is never consulted; on the tolerance test the loop breaks keeping
the current guess; otherwise the guess is updated with dp_small when the
residual magnitude grew and dp_big otherwise, and diff_old is set to the
current residual for the (never-used) next comparison. -/
def solve_loop_go (F : ℚ → ℚ) (ss_r_tol dp_big dp_small : ℚ) :
    ℚ → Option ℚ → ℕ → ℕ → LoopResult
  | guess, _, it, 0 => ⟨guess, it, false⟩
  | guess, _, it, rem + 1 =>
      let diff_old : Option ℚ := none
      let diff := F guess
      if |diff| < ss_r_tol then ⟨guess, it, true⟩
      else
        let guess' := if grew_vs diff_old diff then guess - dp_small * diff
          else guess - dp_big * diff
        if rem = 0 then ⟨guess', it, false⟩
        else solve_loop_go F ss_r_tol dp_big dp_small guess' (some diff)
          (it + 1) rem

/-- solve_model's equilibrium loop: maxit_ss iterations starting from the
initial guess, with ge_algorithm abstracted as the residual function F. -/
def solve_model_loop (F : ℚ → ℚ) (ss_r_tol dp_big dp_small : ℚ)
    (maxit_ss : ℕ) (r_guess0 : ℚ) : LoopResult :=
  solve_loop_go F ss_r_tol dp_big dp_small r_guess0 none 0 maxit_ss

/-- The post-loop test guarding print("No convergence"): it > maxit_ss - 1,
evaluated on the final value of the loop counter. -/
def no_convergence_reported (res : LoopResult) (maxit_ss : ℕ) : Bool :=
  decide (maxit_ss - 1 < res.it)

/-- The residual oracle for the C1 run: residual 1/1000 at the initial
guess 1/50 and residual 1/500 (twice as large in magnitude) everywhere
else. -/
def F_ce1 : ℚ → ℚ := fun x => if x = 1/50 then 1/1000 else 1/500

/-- The matrix q built by stationary_mc: P - I with its last column replaced
by ones (the source drops the last column of p = P - I and appends a column
of ones). -/
def qMat {m : ℕ} (P : Matrix (Fin (m + 1)) (Fin (m + 1)) ℚ) :
    Matrix (Fin (m + 1)) (Fin (m + 1)) ℚ :=
  Matrix.of fun i j =>
    if j = Fin.last m then 1 else P i j - (if i = j then 1 else 0)

/-- The right-hand-side row vector x = np.r_[zeros(n-1), 1]. -/
def eVec {m : ℕ} : Fin (m + 1) → ℚ := fun i => if i = Fin.last m then 1 else 0

/-- np.linalg.inv on a square rational matrix: the true inverse computed as
adjugate over determinant (np raises LinAlgError exactly when the input is
singular, which stationary_mc_fails captures). -/
def np_inv {m : ℕ} (A : Matrix (Fin (m + 1)) (Fin (m + 1)) ℚ) :
    Matrix (Fin (m + 1)) (Fin (m + 1)) ℚ :=
  A.det⁻¹ • A.adjugate

/-- stationary_mc: the source solves x q = e by x = np.dot(e, inv(q)). -/
def stationary_mc {m : ℕ} (P : Matrix (Fin (m + 1)) (Fin (m + 1)) ℚ) :
    Fin (m + 1) → ℚ :=
  Matrix.vecMul eVec (np_inv (qMat P))

/-- The only failure mode of stationary_mc: np.linalg.inv raises LinAlgError
precisely on a singular matrix.  No validation of P is performed. -/
def stationary_mc_fails {m : ℕ}
    (P : Matrix (Fin (m + 1)) (Fin (m + 1)) ℚ) : Prop :=
  (qMat P).det = 0

/-- The model's transition matrix as a square matrix. -/
def pi_mat : Matrix (Fin 2) (Fin 2) ℚ := Matrix.of pi_model

/-- A square matrix whose second row sums to one half: not
row-stochastic. -/
def P_ce7 : Matrix (Fin 2) (Fin 2) ℚ := Matrix.of ![![1/2, 1/2], ![1/2, 0]]

/-- The mass-splitting weight of discrete_stationary_density: the cell's
interpolated next asset sends all mass to the left (right) fine-grid edge
when at or beyond it, and otherwise splits mass between the two bracketing
fine-grid points with the linear-interpolation weights p0 and 1 - p0. -/
def dweight {Naf : ℕ} (grid_a_fine : Fin Naf → ℚ) (a_intp : ℚ)
    (c : Fin Naf) : ℚ :=
  if a_intp ≤ idx grid_a_fine 0 then (if c.val = 0 then 1 else 0)
  else if idx grid_a_fine (Naf - 1) ≤ a_intp then
    (if c.val = Naf - 1 then 1 else 0)
  else
    let j := count_le grid_a_fine a_intp
    let p0 := (a_intp - idx grid_a_fine (j - 1)) /
      (idx grid_a_fine j - idx grid_a_fine (j - 1))
    if c.val = j then p0 else if c.val = j - 1 then 1 - p0 else 0

/-- One forward push of the density: each cell's mass is spread over next
assets by the interpolation weights and over next income states by the
transition matrix (the += accumulation of the source, written as a sum). -/
def discrete_push {Nz Na Naf : ℕ} (grid_a : Fin Na → ℚ)
    (grid_a_fine : Fin Naf → ℚ) (pol_sav : Fin Nz → Fin Na → ℚ)
    (pi : Fin Nz → Fin Nz → ℚ) (old : Fin Nz → Fin Naf → ℚ) :
    Fin Nz → Fin Naf → ℚ :=
  fun izz c => ∑ iz, ∑ ia, old iz ia * pi iz izz *
    dweight grid_a_fine (np_interp grid_a (pol_sav iz) (grid_a_fine ia)) c

/-- Total mass of a joint density table:
np.sum(np.sum(stationary_pdf, axis=0)). -/
def pdf_total {Nz Naf : ℕ} (pdf : Fin Nz → Fin Naf → ℚ) : ℚ :=
  ∑ iz, ∑ ia, pdf iz ia

/-- The per-sweep renormalization of the density. -/
def pdf_normalize {Nz Naf : ℕ} (pdf : Fin Nz → Fin Naf → ℚ) :
    Fin Nz → Fin Naf → ℚ :=
  fun iz ia => pdf iz ia / pdf_total pdf

/-- Supremum distance np.abs(new - old).max() between two density
tables. -/
def pdf_dist {Nz Naf : ℕ} (a b : Fin Nz → Fin Naf → ℚ) : ℚ :=
  Finset.univ.fold max 0 (fun p : Fin Nz × Fin Naf => |a p.1 p.2 - b p.1 p.2|)

/-- The fixed-point iteration of discrete_stationary_density over the
remaining iteration budget: push, renormalize, break when the supremum
distance falls under the tolerance, otherwise continue; the final density
of the last sweep is returned either way. -/
def dsd_go {Nz Na Naf : ℕ} (grid_a : Fin Na → ℚ)
    (grid_a_fine : Fin Naf → ℚ) (pol_sav : Fin Nz → Fin Na → ℚ)
    (pi : Fin Nz → Fin Nz → ℚ) (tol : ℚ) :
    (Fin Nz → Fin Naf → ℚ) → ℕ → ℕ → (Fin Nz → Fin Naf → ℚ) × ℕ
  | old, 0, it => (old, it)
  | old, rem + 1, it =>
      let new := pdf_normalize (discrete_push grid_a grid_a_fine pol_sav pi old)
      if pdf_dist new old < tol then (new, it)
      else if rem = 0 then (new, it)
      else dsd_go grid_a grid_a_fine pol_sav pi tol new rem (it + 1)

/-- discrete_stationary_density: the initial guess is the uniform density
over assets weighted by the stationary income distribution, then the
forward iteration runs for at most maxit sweeps. -/
def discrete_stationary_density {Nz Na Naf : ℕ} (grid_a : Fin Na → ℚ)
    (grid_a_fine : Fin Naf → ℚ) (pol_sav : Fin Nz → Fin Na → ℚ)
    (pi : Fin Nz → Fin Nz → ℚ) (pi_stat : Fin Nz → ℚ)
    (maxit : ℕ) (tol : ℚ) : (Fin Nz → Fin Naf → ℚ) × ℕ :=
  dsd_go grid_a grid_a_fine pol_sav pi tol
    (fun iz _ => pi_stat iz / (Naf : ℚ)) maxit 0

/-- One row of the eigenvector engine's transition matrix Q, built exactly
as the source does: starting from a zero row, for each next income state
i_zz the entries at columns ma + j and ma + j - 1 are assigned (in that
order) the masses p*pi and (1-p)*pi.  A column index of -1 (which arises
when the interpolated asset falls strictly below the fine grid, so j = 0)
follows numpy semantics and wraps to the last column; the out-of-range
index ma + j = Nz*Na_fine (an IndexError in the source, only possible when
Na_fine = 1 or the grid is not increasing) wraps to 0 here, a case excluded
by the theorems' hypotheses. -/
def eigenQrow {Nz Na Naf : ℕ} (grid_a : Fin Na → ℚ)
    (grid_a_fine : Fin Naf → ℚ) (pol_sav : Fin Nz → Fin Na → ℚ)
    (pi : Fin Nz → Fin Nz → ℚ) (i_z : Fin Nz) (i_a : Fin Naf) :
    Fin (Nz * Naf) → ℚ :=
  have hN : 0 < Nz * Naf :=
    Nat.mul_pos (lt_of_le_of_lt (Nat.zero_le _) i_z.isLt)
      (lt_of_le_of_lt (Nat.zero_le _) i_a.isLt)
  let a_intp := np_interp grid_a (pol_sav i_z) (grid_a_fine i_a)
  let j0 := count_le grid_a_fine a_intp
  let pj : ℚ × ℕ :=
    if a_intp ≤ idx grid_a_fine 0 then (0, j0)
    else if idx grid_a_fine (Naf - 1) ≤ a_intp then (1, j0 - 1)
    else ((a_intp - idx grid_a_fine (j0 - 1)) /
      (idx grid_a_fine j0 - idx grid_a_fine (j0 - 1)), j0)
  (List.finRange Nz).foldl
    (fun row i_zz =>
      Function.update
        (Function.update row
          ⟨(i_zz.val * Naf + pj.2) % (Nz * Naf), Nat.mod_lt _ hN⟩
          (pj.1 * pi i_z i_zz))
        ⟨(i_zz.val * Naf + pj.2 + Nz * Naf - 1) % (Nz * Naf),
          Nat.mod_lt _ hN⟩
        ((1 - pj.1) * pi i_z i_zz))
    (fun _ => 0)

/-- The full eigenvector-engine transition matrix Q: row na + i_a of block
i_z is eigenQrow at (i_z, i_a). -/
def eigenQ {Nz Na Naf : ℕ} (grid_a : Fin Na → ℚ)
    (grid_a_fine : Fin Naf → ℚ) (pol_sav : Fin Nz → Fin Na → ℚ)
    (pi : Fin Nz → Fin Nz → ℚ) :
    Matrix (Fin (Nz * Naf)) (Fin (Nz * Naf)) ℚ :=
  Matrix.of fun rc c =>
    have h0 : 0 < Nz * Naf := lt_of_le_of_lt (Nat.zero_le _) rc.isLt
    have hNaf : 0 < Naf := by
      rcases Nat.eq_zero_or_pos Naf with h | h
      · rw [h, Nat.mul_zero] at h0
        exact absurd h0 (lt_irrefl 0)
      · exact h
    eigenQrow grid_a grid_a_fine pol_sav pi
      ⟨rc.val / Naf, (Nat.div_lt_iff_lt_mul hNaf).mpr rc.isLt⟩
      ⟨rc.val % Naf, Nat.mod_lt _ hNaf⟩ c

/-- The tail of eigen_stationary_density once the eigenvector has been
selected and its imaginary part found negligible: reshape the real vector
row-major to (Nz, Na_fine) and divide by its total sum.  v models the real
part of the eigenvector that np.linalg.eig pairs with the eigenvalue
closest to one, i.e. any real vector with vecMul v Q = v. -/
def eigen_density_from_vec (Nz Naf : ℕ) (v : Fin (Nz * Naf) → ℚ) :
    Fin Nz → Fin Naf → ℚ :=
  fun iz ia =>
    v ⟨iz.val * Naf + ia.val, by
      calc iz.val * Naf + ia.val < iz.val * Naf + Naf :=
            Nat.add_lt_add_left ia.isLt _
        _ = (iz.val + 1) * Naf := (Nat.succ_mul _ _).symm
        _ ≤ Nz * Naf := Nat.mul_le_mul_right _ iz.isLt⟩ / ∑ c, v c

/-- The two-point grid 0, 1. -/
def grid01 : Fin 2 → ℚ := ![0, 1]

/-- A one-income-state savings policy: keep assets where they are. -/
def pol01 : Fin 1 → Fin 2 → ℚ := fun _ => ![0, 1]

/-- The trivial one-state transition matrix, row-stochastic. -/
def pi1 : Fin 1 → Fin 1 → ℚ := fun _ _ => 1

/-- A two-state savings policy saving the grid minimum everywhere, used to
instantiate the row-sum theorem for the eigenvector engine's Q. -/
def pol_w9 : Fin 2 → Fin 2 → ℚ := fun _ _ => 0

/-- One agent-period of simulate_MonteCarlo's inner loop: shock realization
(draw against pi[z_lag, 1], the code hard-wiring two income states), savings
path by interpolation of the policy with the borrowing constraint enforced,
and the edge test check_out, true when the realized savings weakly exceed
pol_sav[z, -1], the policy value at the last coarse grid point.  Returns
(sim_z_idx[i], sim_sav[i], check_out).  The consumption, cash-on-hand and
Euler-error diagnostics of the source are pure outputs that never feed back
into the state or the edge counter and are omitted. -/
def mc_agent_step {Na : ℕ} (grid_a : Fin Na → ℚ)
    (pol_sav : Fin 2 → Fin Na → ℚ) (pi : Fin 2 → Fin 2 → ℚ)
    (draw : ℚ) (z_lag : Fin 2) (a_lag : ℚ) : Fin 2 × ℚ × Bool :=
  let z : Fin 2 := if draw ≤ pi z_lag 1 then 1 else 0
  let s0 := np_interp grid_a (pol_sav z) a_lag
  let s := if s0 < idx grid_a 0 then idx grid_a 0 else s0
  (z, s, decide (idx (pol_sav z) (Na - 1) ≤ s))

/-- The time loop of simulate_MonteCarlo, reduced to the state that the
grid-size check depends on: lagged shock indices, lagged savings and the
running edge counter.  One list entry per period t holds that period's
shuffled draws; the counter adds the number of agents whose check_out fired,
accumulating agent-periods across all T periods. -/
def mc_edge_go {simN Na : ℕ} (grid_a : Fin Na → ℚ)
    (pol_sav : Fin 2 → Fin Na → ℚ) (pi : Fin 2 → Fin 2 → ℚ) :
    List (Fin simN → ℚ) → (Fin simN → Fin 2) → (Fin simN → ℚ) → ℕ → ℕ
  | [], _, _, edge => edge
  | draw :: rest, z_lag, a_lag, edge =>
    mc_edge_go grid_a pol_sav pi rest
      (fun i =>
        (mc_agent_step grid_a pol_sav pi (draw i) (z_lag i) (a_lag i)).1)
      (fun i =>
        (mc_agent_step grid_a pol_sav pi (draw i) (z_lag i) (a_lag i)).2.1)
      (edge + (Finset.univ.filter (fun i =>
        (mc_agent_step grid_a pol_sav pi (draw i) (z_lag i)
          (a_lag i)).2.2 = true)).card)

/-- The grid size evaluation of simulate_MonteCarlo: frac_outside =
edge / grid_a.size, dividing the accumulated edge count by the NUMBER OF
COARSE GRID POINTS Na (the source's grid_a.size), not by the number of
simulated households simN. -/
def frac_outside {simN Na : ℕ} (grid_a : Fin Na → ℚ)
    (pol_sav : Fin 2 → Fin Na → ℚ) (pi : Fin 2 → Fin 2 → ℚ)
    (draws : List (Fin simN → ℚ)) (z0 : Fin simN → Fin 2)
    (a0 : Fin simN → ℚ) : ℚ :=
  (mc_edge_go grid_a pol_sav pi draws z0 a0 0 : ℚ) / (Na : ℚ)

/-- Whether simulate_MonteCarlo raises Exception('Increase grid size!'):
exactly when frac_outside > 0.01. -/
def mc_raises {simN Na : ℕ} (grid_a : Fin Na → ℚ)
    (pol_sav : Fin 2 → Fin Na → ℚ) (pi : Fin 2 → Fin 2 → ℚ)
    (draws : List (Fin simN → ℚ)) (z0 : Fin simN → Fin 2)
    (a0 : Fin simN → ℚ) : Bool :=
  decide ((1 : ℚ) / 100 < frac_outside grid_a pol_sav pi draws z0 a0)

/-- Keep-assets savings policy on the model's own 200-point coarse grid. -/
def pol_id_model : Fin 2 → Fin 200 → ℚ := fun _ a => grid_a_model a

/-- A single simulated household, one period: neutral draw, low initial
income state, initial assets at the top of the grid. -/
def draw_w6 : Fin 1 → ℚ := fun _ => 1/2

def z0_w6 : Fin 1 → Fin 2 := fun _ => 0

def a0_w6 : Fin 1 → ℚ := fun _ => 100

/-- A mixed-sign unit-eigenvalue eigenvector of the eigenvector engine's Q
for the configuration above (Q is the identity, so any vector works); its
entries sum to one. -/
def v_ce4 : Fin (1 * 2) → ℚ := ![3/2, -1/2]

/-- The stationary distribution (1/2, 1/2) of the model's transition
matrix. -/
def pi_stat2 : Fin 2 → ℚ := ![1/2, 1/2]

/-- An everywhere-positive eigenvector stand-in used by the witness. -/
def v_w4 : Fin (1 * 2) → ℚ := ![1/2, 1/2]

/-- A two-state zero savings policy. -/
def pol02 : Fin 2 → Fin 2 → ℚ := fun _ _ => 0

/-- On a strictly increasing vector, membership of the count set is an
initial segment: g i ≤ x exactly when i lies below count_le g x. -/
theorem count_le_iff {n : ℕ} {g : Fin n → ℚ}
    (hg : ∀ i j : Fin n, i < j → g i < g j) (x : ℚ) (i : Fin n) :
    g i ≤ x ↔ i.val < count_le g x := by
  have hmono : ∀ i' i : Fin n, i' ≤ i → g i' ≤ g i := by
    intro i' i h
    rcases eq_or_lt_of_le h with h' | h'
    · rw [h']
    · exact le_of_lt (hg _ _ h')
  constructor
  · intro hi
    have hsub : Finset.Iic i ⊆ Finset.univ.filter (fun k => g k ≤ x) := by
      intro i' hi'
      rw [Finset.mem_Iic] at hi'
      exact Finset.mem_filter.mpr ⟨Finset.mem_univ _, le_trans (hmono _ _ hi') hi⟩
    have := Finset.card_le_card hsub
    rw [Fin.card_Iic] at this
    exact lt_of_lt_of_le (Nat.lt_succ_self _) this
  · intro hv
    by_contra hgi
    have hsub : Finset.univ.filter (fun k => g k ≤ x) ⊆ Finset.Iio i := by
      intro i' hi'
      rw [Finset.mem_filter] at hi'
      rw [Finset.mem_Iio]
      by_contra hge
      push_neg at hge
      exact hgi (le_trans (hmono _ _ hge) hi'.2)
    have := Finset.card_le_card hsub
    rw [Fin.card_Iio] at this
    exact absurd (lt_of_lt_of_le hv this) (lt_irrefl _)

/-- Bracketing of x by the count index, in the interior of a strictly
increasing grid. -/
theorem count_le_bracket {n : ℕ} {g : Fin n → ℚ}
    (hg : ∀ i j : Fin n, i < j → g i < g j) {x : ℚ}
    (hn : 0 < n) (hlo : idx g 0 < x) (hhi : x < idx g (n - 1)) :
    1 ≤ count_le g x ∧ count_le g x ≤ n - 1 ∧
      idx g (count_le g x - 1) ≤ x ∧ x < idx g (count_le g x) := by
  have h0 : (⟨0, hn⟩ : Fin n).val < count_le g x := by
    rw [← count_le_iff hg x ⟨0, hn⟩]
    have : idx g 0 = g ⟨0, hn⟩ := by simp [idx, hn]
    rw [this] at hlo
    exact le_of_lt hlo
  have hub : n - 1 < n := Nat.sub_lt hn Nat.one_pos
  have hlast : ¬ ((⟨n - 1, hub⟩ : Fin n).val < count_le g x) := by
    rw [← count_le_iff hg x ⟨n - 1, hub⟩]
    have : idx g (n - 1) = g ⟨n - 1, hub⟩ := by simp [idx, hub]
    rw [this] at hhi
    exact not_le.mpr hhi
  have h1 : 1 ≤ count_le g x := h0
  have h2 : count_le g x ≤ n - 1 := by
    by_contra hc
    push_neg at hc
    exact hlast hc
  have hjn : count_le g x - 1 < n := by omega
  have hjn' : count_le g x < n := by omega
  refine ⟨h1, h2, ?_, ?_⟩
  · have : idx g (count_le g x - 1) = g ⟨count_le g x - 1, hjn⟩ := by
      simp [idx, hjn]
    rw [this, count_le_iff hg x ⟨count_le g x - 1, hjn⟩]
    simp only []
    omega
  · have : idx g (count_le g x) = g ⟨count_le g x, hjn'⟩ := by
      simp [idx, hjn']
    rw [this]
    by_contra hc
    push_neg at hc
    have := (count_le_iff hg x ⟨count_le g x, hjn'⟩).mp hc
    simp only [] at this
    omega

/-- np.interp never goes below a uniform lower bound of its data vector. -/
theorem np_interp_lower {n : ℕ} {xp fp : Fin n → ℚ} {v : ℚ}
    (hn : 0 < n) (hxp : ∀ i j : Fin n, i < j → xp i < xp j)
    (hfp : ∀ i : Fin n, v ≤ fp i) (x : ℚ) :
    v ≤ np_interp xp fp x := by
  have hn' : ¬ (n = 0) := Nat.pos_iff_ne_zero.mp hn
  unfold np_interp
  rw [if_neg hn']
  by_cases h1 : x ≤ idx xp 0
  · rw [if_pos h1]
    have : idx fp 0 = fp ⟨0, hn⟩ := by simp [idx, hn]
    rw [this]; exact hfp _
  · rw [if_neg h1]
    by_cases h2 : idx xp (n - 1) ≤ x
    · rw [if_pos h2]
      have hub : n - 1 < n := Nat.sub_lt hn Nat.one_pos
      have : idx fp (n - 1) = fp ⟨n - 1, hub⟩ := by simp [idx, hub]
      rw [this]; exact hfp _
    · rw [if_neg h2]
      push_neg at h1 h2
      obtain ⟨hj1, hj2, hbl, hbr⟩ := count_le_bracket hxp hn h1 h2
      set j := count_le xp x with hj
      have hjn : j - 1 < n := by omega
      have hjn' : j < n := by omega
      have hne : j - 1 ≠ j := by omega
      have hlt : (⟨j - 1, hjn⟩ : Fin n) < ⟨j, hjn'⟩ := by
        rw [Fin.lt_def]; simp; omega
      have hxlt : idx xp (j - 1) < idx xp j := by
        have e1 : idx xp (j - 1) = xp ⟨j - 1, hjn⟩ := by simp [idx, hjn]
        have e2 : idx xp j = xp ⟨j, hjn'⟩ := by simp [idx, hjn']
        rw [e1, e2]; exact hxp _ _ hlt
      have hden : 0 < idx xp j - idx xp (j - 1) := by linarith
      have hf1 : v ≤ idx fp (j - 1) := by
        have : idx fp (j - 1) = fp ⟨j - 1, hjn⟩ := by simp [idx, hjn]
        rw [this]; exact hfp _
      have hf2 : v ≤ idx fp j := by
        have : idx fp j = fp ⟨j, hjn'⟩ := by simp [idx, hjn']
        rw [this]; exact hfp _
      set t : ℚ := (x - idx xp (j - 1)) / (idx xp j - idx xp (j - 1)) with ht
      have ht0 : 0 ≤ t := div_nonneg (by linarith) (le_of_lt hden)
      have ht1 : t < 1 := by
        rw [ht, div_lt_one hden]; linarith
      have hexp : idx fp (j - 1) +
          (x - idx xp (j - 1)) * (idx fp j - idx fp (j - 1)) /
            (idx xp j - idx xp (j - 1)) =
          (1 - t) * idx fp (j - 1) + t * idx fp j := by
        rw [ht]; field_simp; ring
      rw [hexp]
      have : (1 - t) * v + t * v ≤ (1 - t) * idx fp (j - 1) + t * idx fp j := by
        have g1 : (1 - t) * v ≤ (1 - t) * idx fp (j - 1) :=
          mul_le_mul_of_nonneg_left hf1 (by linarith)
        have g2 : t * v ≤ t * idx fp j := mul_le_mul_of_nonneg_left hf2 ht0
        linarith
      linarith [this]

/-- For a non-degenerate grid request the power-law formula holds at every
index, endpoints included. -/
theorem make_grid_formula (mn mx : ℚ) (n curv : ℕ) (hn : 2 ≤ n) (hc : 0 < curv) :
    ∀ i : Fin n, make_grid mn mx n curv i =
      mn + (mx - mn) * ((i.val : ℚ) / ((n : ℚ) - 1)) ^ curv := by
  intro i
  have hden : ((n : ℚ) - 1) ≠ 0 := by
    have : (2 : ℚ) ≤ (n : ℚ) := by exact_mod_cast hn
    linarith
  unfold make_grid
  by_cases hlast : i.val = n - 1
  · rw [if_pos hlast, hlast]
    have hcast : ((n - 1 : ℕ) : ℚ) = (n : ℚ) - 1 := by
      have : 1 ≤ n := by omega
      push_cast [Nat.cast_sub this]
      ring
    rw [hcast, div_self hden, one_pow]
    ring
  · rw [if_neg hlast]
    by_cases h0 : i.val = 0
    · rw [if_pos h0, h0]
      simp only [Nat.cast_zero, zero_div]
      rw [zero_pow (Nat.pos_iff_ne_zero.mp hc)]
      ring
    · rw [if_neg h0]

/-- C8: for every min < max, n at least 2 and positive curvature, make_grid
returns a vector of length exactly n (its index type) that is strictly
increasing, starts exactly at min, ends exactly at max, and follows the
power-law formula at interior points.  (The source takes the curvature as a
numeric parameter; the model value is the integer 3, and the embedding takes
integer curvatures.) -/
theorem make_grid_spec (mn mx : ℚ) (n curv : ℕ)
    (hmm : mn < mx) (hn : 2 ≤ n) (hc : 0 < curv) :
    (∀ i j : Fin n, i < j →
        make_grid mn mx n curv i < make_grid mn mx n curv j) ∧
    make_grid mn mx n curv ⟨0, by omega⟩ = mn ∧
    make_grid mn mx n curv ⟨n - 1, by omega⟩ = mx ∧
    (∀ i : Fin n, 0 < i.val → i.val < n - 1 →
        make_grid mn mx n curv i =
          mn + (mx - mn) * ((i.val : ℚ) / ((n : ℚ) - 1)) ^ curv) := by
  have hform := make_grid_formula mn mx n curv hn hc
  have hden : (0 : ℚ) < (n : ℚ) - 1 := by
    have : (2 : ℚ) ≤ (n : ℚ) := by exact_mod_cast hn
    linarith
  refine ⟨?_, ?_, ?_, fun i _ _ => hform i⟩
  · intro i j hij
    rw [hform i, hform j]
    have hij' : (i.val : ℚ) < (j.val : ℚ) := by
      exact_mod_cast (Fin.lt_def.mp hij)
    have hbase : ((i.val : ℚ) / ((n : ℚ) - 1)) < ((j.val : ℚ) / ((n : ℚ) - 1)) :=
      div_lt_div_of_pos_right hij' hden
    have hb0 : (0 : ℚ) ≤ (i.val : ℚ) / ((n : ℚ) - 1) :=
      div_nonneg (Nat.cast_nonneg _) (le_of_lt hden)
    have hpow := pow_lt_pow_left₀ hbase hb0 (Nat.pos_iff_ne_zero.mp hc)
    have hscale : (0 : ℚ) < mx - mn := by linarith
    nlinarith [hpow, hscale]
  · rw [hform ⟨0, by omega⟩]
    simp only [Nat.cast_zero, zero_div]
    rw [zero_pow (Nat.pos_iff_ne_zero.mp hc)]
    ring
  · rw [hform ⟨n - 1, by omega⟩]
    have hcast : ((n - 1 : ℕ) : ℚ) = (n : ℚ) - 1 := by
      have : 1 ≤ n := by omega
      push_cast [Nat.cast_sub this]
      ring
    simp only []
    rw [hcast, div_self (ne_of_gt hden), one_pow]
    ring

/-- Marginal utility is strictly positive: the clamp keeps the base of the
power at or above eps. -/
theorem u_prime_pos (c : ℚ) (sigma : ℕ) : 0 < u_prime c sigma := by
  unfold u_prime
  apply zpow_pos
  have : (0 : ℚ) < eps := by norm_num [eps]
  exact lt_of_lt_of_le this (le_max_right _ _)

/-- Marginal utility is bounded above by the clamp value raised to the same
negative power. -/
theorem u_prime_le (c : ℚ) (sigma : ℕ) :
    u_prime c sigma ≤ eps ^ (-(sigma : ℤ)) := by
  unfold u_prime
  have heps : (0 : ℚ) < eps := by norm_num [eps]
  have hle : eps ≤ max c eps := le_max_right _ _
  have hmpos : (0 : ℚ) < max c eps := lt_of_lt_of_le heps hle
  rw [zpow_neg, zpow_neg, zpow_natCast, zpow_natCast]
  exact inv_anti₀ (pow_pos heps _) (pow_le_pow_left₀ (le_of_lt heps) hle _)

/-- C10: the Euler-residual function is total and bounded.  The clamp keeps
every marginal utility in (0, eps^(-sigma)], so for every candidate savings
value and every parameter pack with non-negative transition weights the
residual is a well-defined number with an explicit finite bound; the
root-finder never sees an undefined value. -/
theorem euler_eq_residual_total {Nz Na : ℕ} (a_plus : ℚ) (p : ParamsEER Nz Na)
    (hpi : ∀ zz : Fin Nz, 0 ≤ p.pi p.i_z zz) :
    0 < u_prime ((1 + p.r) * p.a + p.w * p.z - a_plus) p.sigma ∧
    |euler_eq_residual a_plus p| ≤
      eps ^ (-(p.sigma : ℤ)) *
        (1 + |(1 + p.r) * p.beta| * ∑ zz : Fin Nz, p.pi p.i_z zz) := by
  constructor
  · exact u_prime_pos _ _
  · have hE : (0 : ℚ) < eps ^ (-(p.sigma : ℤ)) := by
      apply zpow_pos
      norm_num [eps]
    set E := eps ^ (-(p.sigma : ℤ)) with hEdef
    set K := (1 + p.r) * p.beta with hK
    set A := u_prime ((1 + p.r) * p.a + p.w * p.z - a_plus) p.sigma with hA
    set S := ∑ i_zz : Fin Nz, p.pi p.i_z i_zz *
      u_prime ((1 + p.r) * a_plus + p.w * p.grid_z i_zz -
        np_interp p.grid_a (p.pol_sav_old i_zz) a_plus) p.sigma with hS
    have hres : euler_eq_residual a_plus p = A - K * S := by
      simp only [euler_eq_residual, hA, hK, hS]
    have hS0 : 0 ≤ S := by
      rw [hS]
      apply Finset.sum_nonneg
      intro zz _
      exact mul_nonneg (hpi zz) (le_of_lt (u_prime_pos _ _))
    have hSle : S ≤ (∑ zz : Fin Nz, p.pi p.i_z zz) * E := by
      rw [hS, Finset.sum_mul]
      apply Finset.sum_le_sum
      intro zz _
      exact mul_le_mul_of_nonneg_left (u_prime_le _ _) (hpi zz)
    have hAle : A ≤ E := u_prime_le _ _
    have hA0 : 0 < A := u_prime_pos _ _
    have htri : |A - K * S| ≤ |A| + |K * S| := by
      calc |A - K * S| = |A + -(K * S)| := by ring_nf
        _ ≤ |A| + |-(K * S)| := abs_add _ _
        _ = |A| + |K * S| := by rw [abs_neg]
    have habsA : |A| = A := abs_of_pos hA0
    have habsKS : |K * S| = |K| * S := by
      rw [abs_mul, abs_of_nonneg hS0]
    have hKS : |K| * S ≤ |K| * ((∑ zz : Fin Nz, p.pi p.i_z zz) * E) :=
      mul_le_mul_of_nonneg_left hSle (abs_nonneg _)
    rw [hres]
    calc |A - K * S| ≤ |A| + |K * S| := htri
      _ = A + |K| * S := by rw [habsA, habsKS]
      _ ≤ E + |K| * ((∑ zz : Fin Nz, p.pi p.i_z zz) * E) := by
          have := add_le_add hAle hKS
          linarith
      _ = E * (1 + |K| * ∑ zz : Fin Nz, p.pi p.i_z zz) := by ring

/-- C5 (amended): if the Euler residual at the borrowing constraint is
strictly positive the policy is the corner a_min; if it is exactly zero the
sign test sends the point to the root-finder, which still returns the lower
bound provided the residual at the upper bound is nonzero (when both
endpoint residuals vanish the root-finder returns the upper bound
instead). -/
theorem pfi_point_corner {Nz Na : ℕ} (interior : (ℚ → ℚ) → ℚ → ℚ → ℚ)
    (beta : ℚ) (pi : Fin Nz → Fin Nz → ℚ) (grid_a : Fin Na → ℚ)
    (grid_z : Fin Nz → ℚ) (sigma : ℕ) (r w : ℚ)
    (pol_sav_old : Fin Nz → Fin Na → ℚ) (i_z : Fin Nz) (i_a : Fin Na)
    (hlb : 0 ≤ euler_eq_residual (idx grid_a 0)
      ⟨grid_a i_a, grid_z i_z, pol_sav_old, i_z, r, w, beta, sigma, pi,
        grid_z, grid_a⟩)
    (hub : euler_eq_residual (idx grid_a 0)
        ⟨grid_a i_a, grid_z i_z, pol_sav_old, i_z, r, w, beta, sigma, pi,
          grid_z, grid_a⟩ = 0 →
      euler_eq_residual ((1 + r) * grid_a i_a + w * grid_z i_z)
        ⟨grid_a i_a, grid_z i_z, pol_sav_old, i_z, r, w, beta, sigma, pi,
          grid_z, grid_a⟩ ≠ 0) :
    pfi_point interior beta pi grid_a grid_z sigma r w pol_sav_old i_z i_a =
      some (idx grid_a 0) := by
  simp only [pfi_point, brentq_model]
  split_ifs with h1 h2 h3 h4 h5
  · rfl
  · exfalso
    rcases lt_or_eq_of_le hlb with hpos | hzero
    · exact h1 (by unfold qsign; rw [if_pos hpos])
    · rw [qsign, if_neg (by rw [← hzero]; exact lt_irrefl 0),
        if_neg (by rw [← hzero]; exact lt_irrefl 0)] at h2
      simp at h2
  · exfalso
    have hz : euler_eq_residual (idx grid_a 0)
        (⟨grid_a i_a, grid_z i_z, pol_sav_old, i_z, r, w, beta, sigma, pi,
          grid_z, grid_a⟩ : ParamsEER Nz Na) = 0 := by
      rcases lt_or_eq_of_le hlb with hpos | hzero
      · exact absurd (by unfold qsign; rw [if_pos hpos]) h1
      · exact hzero.symm
    rw [hz, zero_mul] at h3
    exact lt_irrefl 0 h3
  · exfalso
    have hz : euler_eq_residual (idx grid_a 0)
        (⟨grid_a i_a, grid_z i_z, pol_sav_old, i_z, r, w, beta, sigma, pi,
          grid_z, grid_a⟩ : ParamsEER Nz Na) = 0 := by
      rcases lt_or_eq_of_le hlb with hpos | hzero
      · exact absurd (by unfold qsign; rw [if_pos hpos]) h1
      · exact hzero.symm
    exact hub hz h4
  · rfl
  · exfalso
    rcases lt_or_eq_of_le hlb with hpos | hzero
    · exact h1 (by unfold qsign; rw [if_pos hpos])
    · exact h5 hzero.symm

set_option maxRecDepth 400000 in
/-- C5, as stated, fails: with the model parameters, income state 0,
grid point 0, prices r = 1/24 and w = 2 and the policy iterate pol_ce5, the
Euler residual at the lower bound is exactly zero (hence non-negative), but
the residual at the upper bound is also exactly zero, so the root-finder's
endpoint shortcut returns the upper bound 1 rather than the corner
a_min = 0. -/
theorem pfi_corner_nonneg_claim_false :
    ¬ (∀ (Nz Na : ℕ) (interior : (ℚ → ℚ) → ℚ → ℚ → ℚ)
         (beta : ℚ) (pi : Fin Nz → Fin Nz → ℚ) (grid_a : Fin Na → ℚ)
         (grid_z : Fin Nz → ℚ) (sigma : ℕ) (r w : ℚ)
         (pol_sav_old : Fin Nz → Fin Na → ℚ) (i_z : Fin Nz) (i_a : Fin Na),
         0 ≤ euler_eq_residual (idx grid_a 0)
             ⟨grid_a i_a, grid_z i_z, pol_sav_old, i_z, r, w, beta, sigma,
               pi, grid_z, grid_a⟩ →
         pfi_point interior beta pi grid_a grid_z sigma r w pol_sav_old
             i_z i_a = some (idx grid_a 0)) := by
  intro h
  have h1 := h 2 200 (fun _ _ _ => 0) beta_model pi_model grid_a_model
    grid_z_model 2 (1/24) 2 pol_ce5 0 0
    (of_decide_eq_true (by with_unfolding_all rfl))
  have h2 : pfi_point (fun _ _ _ => 0) beta_model pi_model grid_a_model
      grid_z_model 2 (1/24) 2 pol_ce5 0 0 = some 1 :=
    of_decide_eq_true (by with_unfolding_all rfl)
  have h3 : idx grid_a_model 0 = 0 :=
    of_decide_eq_true (by with_unfolding_all rfl)
  rw [h2, h3] at h1
  exact one_ne_zero (Option.some.inj h1)

set_option maxRecDepth 400000 in
/-- Witness for pfi_point_corner: a concrete configuration (single-point
asset grid at 0, zero policy iterate, r = 1/50, w = 1) where the residual at
the lower bound is strictly positive and the returned policy is the
corner. -/
theorem pfi_point_corner_witness :
    0 ≤ euler_eq_residual (idx (fun _ : Fin 1 => (0 : ℚ)) 0)
        ⟨(fun _ : Fin 1 => (0 : ℚ)) 0, grid_z_model 0,
          (fun _ _ => 0), 0, 1/50, 1, beta_model, 2, pi_model,
          grid_z_model, (fun _ : Fin 1 => (0 : ℚ))⟩ ∧
    pfi_point (fun _ _ _ => 0) beta_model pi_model
        (fun _ : Fin 1 => (0 : ℚ)) grid_z_model 2 (1/50) 1
        (fun _ _ => 0) 0 0 =
      some (idx (fun _ : Fin 1 => (0 : ℚ)) 0) :=
  ⟨of_decide_eq_true (by with_unfolding_all rfl),
   pfi_point_corner (fun _ _ _ => 0) beta_model pi_model
     (fun _ : Fin 1 => (0 : ℚ)) grid_z_model 2 (1/50) 1 (fun _ _ => 0) 0 0
     (of_decide_eq_true (by with_unfolding_all rfl))
     (fun hz => absurd hz (of_decide_eq_false (by with_unfolding_all rfl)))⟩

/-- Witness for euler_eq_residual_total at a concrete parameter pack and
candidate savings value 1/4. -/
theorem euler_eq_residual_total_witness :
    (∀ zz : Fin 2, 0 ≤ params_w10.pi params_w10.i_z zz) ∧
    (0 < u_prime ((1 + params_w10.r) * params_w10.a +
        params_w10.w * params_w10.z - 1/4) params_w10.sigma ∧
      |euler_eq_residual (1/4) params_w10| ≤
        eps ^ (-(params_w10.sigma : ℤ)) *
          (1 + |(1 + params_w10.r) * params_w10.beta| *
            ∑ zz : Fin 2, params_w10.pi params_w10.i_z zz)) :=
  ⟨of_decide_eq_true (by with_unfolding_all rfl),
   euler_eq_residual_total (1/4) params_w10
     (of_decide_eq_true (by with_unfolding_all rfl))⟩

/-- Witness for make_grid_spec at the model's own grid request
(0, 100, 200, curvature 3). -/
theorem make_grid_spec_witness :
    (0 : ℚ) < 100 ∧
    ((∀ i j : Fin 200, i < j →
        make_grid 0 100 200 3 i < make_grid 0 100 200 3 j) ∧
      make_grid 0 100 200 3 ⟨0, by omega⟩ = 0 ∧
      make_grid 0 100 200 3 ⟨200 - 1, by omega⟩ = 100 ∧
      (∀ i : Fin 200, 0 < i.val → i.val < 200 - 1 →
        make_grid 0 100 200 3 i =
          0 + (100 - 0) * ((i.val : ℚ) / ((200 : ℚ) - 1)) ^ 3)) :=
  ⟨by norm_num,
   make_grid_spec 0 100 200 3 (by norm_num) (by norm_num) (by norm_num)⟩

/-- The loop counter never exceeds entry + budget - 1 when the budget is
positive. -/
theorem solve_loop_go_it_le (F : ℚ → ℚ) (tol dpb dps : ℚ) :
    ∀ (rem : ℕ), 1 ≤ rem → ∀ (guess : ℚ) (dold : Option ℚ) (it : ℕ),
      (solve_loop_go F tol dpb dps guess dold it rem).it ≤ it + rem - 1 := by
  intro rem
  induction rem with
  | zero => intro h; omega
  | succ r ih =>
    intro _ guess dold it
    show (solve_loop_go F tol dpb dps guess dold it (r + 1)).it ≤ it + (r + 1) - 1
    rw [solve_loop_go]
    by_cases hc : |F guess| < tol
    · rw [if_pos hc]; dsimp only; omega
    · rw [if_neg hc]
      by_cases hr : r = 0
      · rw [if_pos hr]; dsimp only; omega
      · rw [if_neg hr]
        have h1 : 1 ≤ r := Nat.one_le_iff_ne_zero.mpr hr
        have := ih h1 (if grew_vs none (F guess) then guess - dps * F guess
          else guess - dpb * F guess) (some (F guess)) (it + 1)
        omega

/-- Closed form of the loop on the identically-1 residual oracle: the
tolerance test never passes, the big damping factor is subtracted every
iteration, and the full budget is consumed. -/
theorem solve_loop_const_one (rem : ℕ) :
    ∀ (guess : ℚ) (dold : Option ℚ) (it : ℕ),
      solve_loop_go (fun _ => 1) (1/10000) (1/10) (1/100) guess dold it
          (rem + 1) =
        ⟨guess - ((rem : ℚ) + 1) * (1/10), it + rem, false⟩ := by
  induction rem with
  | zero =>
    intro guess dold it
    conv_lhs => rw [solve_loop_go]
    dsimp only
    rw [if_neg (by rw [abs_one]; norm_num), if_pos rfl]
    simp only [grew_vs, Bool.false_eq_true, if_false, LoopResult.mk.injEq]
    norm_num
  | succ r ih =>
    intro guess dold it
    conv_lhs => rw [solve_loop_go]
    dsimp only
    rw [if_neg (by rw [abs_one]; norm_num), if_neg (Nat.succ_ne_zero r)]
    simp only [grew_vs, Bool.false_eq_true, if_false]
    rw [ih]
    simp only [LoopResult.mk.injEq]
    push_cast
    refine ⟨by ring, by omega, trivial⟩

/-- C2: the post-loop warning is dead code.  For every residual function and
starting guess the final loop counter is at most maxit_ss - 1 = 99, so
print("No convergence") can never fire; in particular the concrete run whose
residual is identically 1 (never below the 1e-4 tolerance) exhausts all 100
iterations, reports converged = false with no printed warning, and retains
the last damped guess 1/50 - 100*(1/10)*1 = -499/50 as r_ss. -/
theorem solve_loop_warning_dead :
    (∀ (F : ℚ → ℚ) (r0 : ℚ),
      no_convergence_reported
        (solve_model_loop F (1/10000) (1/10) (1/100) 100 r0) 100 = false) ∧
    (solve_model_loop (fun _ => 1) (1/10000) (1/10) (1/100) 100
        (1/50)).converged = false ∧
    (solve_model_loop (fun _ => 1) (1/10000) (1/10) (1/100) 100
        (1/50)).r_guess = -499/50 := by
  have hrun : solve_model_loop (fun _ => 1) (1/10000) (1/10) (1/100) 100
      (1/50) = ⟨1/50 - ((99 : ℚ) + 1) * (1/10), 0 + 99, false⟩ := by
    unfold solve_model_loop
    exact solve_loop_const_one 99 (1/50) none 0
  refine ⟨?_, ?_, ?_⟩
  · intro F r0
    have h := solve_loop_go_it_le F (1/10000) (1/10) (1/100) 100
      (by omega) r0 none 0
    unfold no_convergence_reported solve_model_loop
    simp only [decide_eq_false_iff_not]
    omega
  · rw [hrun]
  · rw [hrun]
    norm_num

/-- C1: the anti-divergence branch is dead.  In the two-iteration run with
residual oracle F_ce1 the second residual's magnitude strictly exceeds the
first's, yet the loop still updates with the big damping factor 1/10
(guess 199/10000 - (1/10)*(1/500) = 197/10000) and not with the
conservative 1/100 prescribed by the claim (which would give 497/25000):
diff_old has just been reset to infinity, so the growth test cannot
succeed. -/
theorem solve_loop_big_damp_despite_growth :
    |F_ce1 (199/10000)| > |F_ce1 (1/50)| ∧
    (solve_model_loop F_ce1 (1/10000) (1/10) (1/100) 2 (1/50)).r_guess =
      197/10000 ∧
    (197/10000 : ℚ) ≠ 497/25000 := by
  have hF1 : F_ce1 (1/50) = 1/1000 := by
    unfold F_ce1
    rw [if_pos rfl]
  have hF2 : F_ce1 (199/10000) = 1/500 := by
    unfold F_ce1
    rw [if_neg (by norm_num)]
  refine ⟨?_, ?_, by norm_num⟩
  · rw [hF1, hF2, abs_of_pos (by norm_num : (0:ℚ) < 1/500),
      abs_of_pos (by norm_num : (0:ℚ) < 1/1000)]
    norm_num
  · unfold solve_model_loop
    conv_lhs => rw [solve_loop_go]
    dsimp only
    rw [hF1]
    rw [if_neg (by rw [abs_of_pos (by norm_num : (0:ℚ) < 1/1000)]; norm_num),
      if_neg one_ne_zero]
    simp only [grew_vs, Bool.false_eq_true, if_false]
    rw [show (1:ℚ)/50 - 1/10 * (1/1000) = 199/10000 by norm_num]
    conv_lhs => rw [solve_loop_go]
    dsimp only
    rw [hF2]
    rw [if_neg (by rw [abs_of_pos (by norm_num : (0:ℚ) < 1/500)]; norm_num),
      if_pos rfl]
    simp only [grew_vs, Bool.false_eq_true, if_false]
    norm_num

/-- The executable adjugate-over-determinant inverse coincides with the
field-valued matrix inverse. -/
theorem np_inv_eq_inv {m : ℕ} (A : Matrix (Fin (m + 1)) (Fin (m + 1)) ℚ) :
    np_inv A = A⁻¹ := by
  rw [Matrix.inv_def, Ring.inverse_eq_inv]
  rfl

/-- The vector returned by stationary_mc solves the linear system x q = e
whenever q is nonsingular. -/
theorem vecMul_stationary_mc {m : ℕ}
    (P : Matrix (Fin (m + 1)) (Fin (m + 1)) ℚ) (hdet : (qMat P).det ≠ 0) :
    Matrix.vecMul (stationary_mc P) (qMat P) = eVec := by
  unfold stationary_mc
  rw [np_inv_eq_inv, Matrix.vecMul_vecMul,
    Matrix.nonsing_inv_mul _ (isUnit_iff_ne_zero.mpr hdet),
    Matrix.vecMul_one]

/-- q is nonsingular, so the linear system x q = e has a unique solution. -/
theorem stationary_mc_unique {m : ℕ}
    (P : Matrix (Fin (m + 1)) (Fin (m + 1)) ℚ) (hdet : (qMat P).det ≠ 0)
    (z : Fin (m + 1) → ℚ) (hz : Matrix.vecMul z (qMat P) = eVec) :
    z = stationary_mc P := by
  have h1 : Matrix.vecMul (Matrix.vecMul z (qMat P)) (qMat P)⁻¹ =
      Matrix.vecMul eVec (qMat P)⁻¹ := by rw [hz]
  rw [Matrix.vecMul_vecMul,
    Matrix.mul_nonsing_inv _ (isUnit_iff_ne_zero.mpr hdet),
    Matrix.vecMul_one] at h1
  rw [h1]
  unfold stationary_mc
  rw [np_inv_eq_inv]

/-- Any solution of x q = e sums to one: the last column of q is all
ones. -/
theorem sum_of_solves_q {m : ℕ}
    (P : Matrix (Fin (m + 1)) (Fin (m + 1)) ℚ) (x : Fin (m + 1) → ℚ)
    (hx : Matrix.vecMul x (qMat P) = eVec) :
    ∑ i, x i = 1 := by
  have hl := congrFun hx (Fin.last m)
  unfold Matrix.vecMul Matrix.dotProduct qMat eVec at hl
  simp only [Matrix.of_apply, if_pos rfl] at hl
  simpa using hl

/-- Any solution of x q = e is a fixed point of right multiplication by P
when the rows of P sum to one. -/
theorem fix_of_solves_q {m : ℕ}
    (P : Matrix (Fin (m + 1)) (Fin (m + 1)) ℚ)
    (hrow : ∀ i, ∑ j, P i j = 1) (x : Fin (m + 1) → ℚ)
    (hx : Matrix.vecMul x (qMat P) = eVec) :
    Matrix.vecMul x P = x := by
  have hsum : ∑ i, x i = 1 := sum_of_solves_q P x hx
  have hcoord : ∀ j, j ≠ Fin.last m → Matrix.vecMul x P j - x j = 0 := by
    intro j hj
    have h := congrFun hx j
    unfold Matrix.vecMul Matrix.dotProduct qMat eVec at h
    simp only [Matrix.of_apply, if_neg hj] at h
    have hexp : ∑ i, x i * (P i j - if i = j then 1 else 0) =
        (∑ i, x i * P i j) - x j := by
      simp only [mul_sub, Finset.sum_sub_distrib, mul_ite, mul_one, mul_zero,
        Finset.sum_ite_eq', Finset.mem_univ, if_true]
    rw [hexp] at h
    unfold Matrix.vecMul Matrix.dotProduct
    linarith [h]
  have htot : ∑ j, (Matrix.vecMul x P j - x j) = 0 := by
    rw [Finset.sum_sub_distrib]
    have h1 : ∑ j, Matrix.vecMul x P j = ∑ i, x i := by
      unfold Matrix.vecMul Matrix.dotProduct
      rw [Finset.sum_comm]
      apply Finset.sum_congr rfl
      intro i _
      rw [← Finset.mul_sum, hrow i, mul_one]
    rw [h1, hsum]
    ring
  have hlast : Matrix.vecMul x P (Fin.last m) - x (Fin.last m) = 0 := by
    by_contra hne
    have hsplit : ∑ j, (Matrix.vecMul x P j - x j) =
        Matrix.vecMul x P (Fin.last m) - x (Fin.last m) := by
      rw [← Finset.sum_subset (Finset.subset_univ {Fin.last m})]
      · simp
      · intro j _ hj
        simp only [Finset.mem_singleton] at hj
        exact hcoord j hj
    rw [hsplit] at htot
    exact hne htot
  funext j
  rcases eq_or_ne j (Fin.last m) with hj | hj
  · rw [hj]
    linarith [hlast]
  · linarith [hcoord j hj]

/-- A row-stochastic real matrix maps the standard simplex to itself under
left (row-vector) multiplication. -/
theorem vecMul_mem_stdSimplex {n : ℕ}
    (M : Matrix (Fin n) (Fin n) ℝ) (hpos : ∀ i j, 0 ≤ M i j)
    (hrow : ∀ i, ∑ j, M i j = 1) {y : Fin n → ℝ}
    (hy : y ∈ stdSimplex ℝ (Fin n)) :
    Matrix.vecMul y M ∈ stdSimplex ℝ (Fin n) := by
  obtain ⟨hy0, hy1⟩ := hy
  constructor
  · intro j
    unfold Matrix.vecMul Matrix.dotProduct
    apply Finset.sum_nonneg
    intro i _
    exact mul_nonneg (hy0 i) (hpos i j)
  · unfold Matrix.vecMul Matrix.dotProduct
    rw [Finset.sum_comm]
    calc ∑ i, ∑ j, y i * M i j = ∑ i, y i * ∑ j, M i j := by
          apply Finset.sum_congr rfl
          intro i _
          rw [Finset.mul_sum]
      _ = ∑ i, y i := by
          apply Finset.sum_congr rfl
          intro i _
          rw [hrow i, mul_one]
      _ = 1 := hy1

/-- Every row-stochastic real matrix admits a stationary probability
vector (Markov-chain fixed point, by Cesaro averaging and compactness of
the simplex). -/
theorem exists_stationary_real {n : ℕ}
    (M : Matrix (Fin n) (Fin n) ℝ) (hpos : ∀ i j, 0 ≤ M i j)
    (hrow : ∀ i, ∑ j, M i j = 1) (hn : 0 < n) :
    ∃ y ∈ stdSimplex ℝ (Fin n), Matrix.vecMul y M = y := by
  classical
  -- the orbit of a fixed starting distribution
  set x0 : Fin n → ℝ := fun i => if i = ⟨0, hn⟩ then 1 else 0 with hx0
  have hx0mem : x0 ∈ stdSimplex ℝ (Fin n) := by
    constructor
    · intro i
      rw [hx0]
      dsimp only
      split <;> norm_num
    · rw [hx0]
      simp
  set seq : ℕ → (Fin n → ℝ) := fun k => Matrix.vecMul x0 (M ^ k) with hseq
  have hseqmem : ∀ k, seq k ∈ stdSimplex ℝ (Fin n) := by
    intro k
    induction k with
    | zero =>
      rw [hseq]
      simpa [Matrix.vecMul_one] using hx0mem
    | succ k ih =>
      have : seq (k + 1) = Matrix.vecMul (seq k) M := by
        rw [hseq]
        dsimp only
        rw [pow_succ, ← Matrix.vecMul_vecMul]
      rw [this]
      exact vecMul_mem_stdSimplex M hpos hrow ih
  have hseqstep : ∀ k, seq (k + 1) = Matrix.vecMul (seq k) M := by
    intro k
    rw [hseq]
    dsimp only
    rw [pow_succ, ← Matrix.vecMul_vecMul]
  -- Cesaro averages
  set avg : ℕ → (Fin n → ℝ) :=
    fun N => fun i => ((N : ℝ) + 1)⁻¹ * ∑ k ∈ Finset.range (N + 1), seq k i
    with havg
  have havgmem : ∀ N, avg N ∈ stdSimplex ℝ (Fin n) := by
    intro N
    have hNpos : (0 : ℝ) < (N : ℝ) + 1 := by positivity
    constructor
    · intro i
      apply mul_nonneg (le_of_lt (inv_pos.mpr hNpos))
      apply Finset.sum_nonneg
      intro k _
      exact (hseqmem k).1 i
    · rw [havg]
      dsimp only
      rw [← Finset.mul_sum, Finset.sum_comm]
      have : ∑ k ∈ Finset.range (N + 1), ∑ i, seq k i =
          ∑ k ∈ Finset.range (N + 1), 1 := by
        apply Finset.sum_congr rfl
        intro k _
        exact (hseqmem k).2
      rw [this]
      simp only [Finset.sum_const, Finset.card_range, nsmul_eq_mul, mul_one]
      push_cast
      rw [inv_mul_cancel₀ (ne_of_gt hNpos)]
  -- extract a convergent subsequence of the averages
  obtain ⟨y, hymem, φ, hφ, hconv⟩ :=
    (isCompact_stdSimplex (Fin n)).tendsto_subseq havgmem
  refine ⟨y, hymem, ?_⟩
  -- key pointwise identity for the averaged iterates
  have hkey : ∀ N j, Matrix.vecMul (avg N) M j =
      avg N j + ((N : ℝ) + 1)⁻¹ * (seq (N + 1) j - seq 0 j) := by
    intro N j
    have h1 : Matrix.vecMul (avg N) M j =
        ((N : ℝ) + 1)⁻¹ * ∑ k ∈ Finset.range (N + 1),
          Matrix.vecMul (seq k) M j := by
      unfold Matrix.vecMul Matrix.dotProduct
      rw [havg]
      dsimp only
      calc ∑ i, (((N : ℝ) + 1)⁻¹ * ∑ k ∈ Finset.range (N + 1), seq k i) *
              M i j
          = ∑ i, ∑ k ∈ Finset.range (N + 1),
              ((N : ℝ) + 1)⁻¹ * (seq k i * M i j) := by
            apply Finset.sum_congr rfl
            intro i _
            rw [mul_assoc, Finset.sum_mul, Finset.mul_sum]
        _ = ∑ k ∈ Finset.range (N + 1), ∑ i,
              ((N : ℝ) + 1)⁻¹ * (seq k i * M i j) := Finset.sum_comm
        _ = ((N : ℝ) + 1)⁻¹ * ∑ k ∈ Finset.range (N + 1), ∑ i,
              seq k i * M i j := by
            rw [Finset.mul_sum]
            apply Finset.sum_congr rfl
            intro k _
            rw [Finset.mul_sum]
    have h2 : ∑ k ∈ Finset.range (N + 1), Matrix.vecMul (seq k) M j =
        ∑ k ∈ Finset.range (N + 1), seq k j + (seq (N + 1) j - seq 0 j) := by
      have h3 : ∀ k, Matrix.vecMul (seq k) M j = seq (k + 1) j := by
        intro k
        rw [hseqstep k]
      rw [Finset.sum_congr rfl (fun k _ => h3 k)]
      have h4 : ∑ k ∈ Finset.range (N + 1), (seq (k + 1) j - seq k j) =
          seq (N + 1) j - seq 0 j :=
        Finset.sum_range_sub (fun k => seq k j) (N + 1)
      have h5 : ∑ k ∈ Finset.range (N + 1), seq (k + 1) j =
          ∑ k ∈ Finset.range (N + 1), seq k j +
            ∑ k ∈ Finset.range (N + 1), (seq (k + 1) j - seq k j) := by
        rw [← Finset.sum_add_distrib]
        apply Finset.sum_congr rfl
        intro k _
        ring
      rw [h5, h4]
    rw [h1, h2, mul_add, havg]
  -- limits along the subsequence, componentwise
  funext j
  have hconvj : ∀ i, Tendsto (fun k => avg (φ k) i) atTop (𝓝 (y i)) := by
    intro i
    have := hconv
    rw [tendsto_pi_nhds] at this
    exact this i
  -- LHS: continuity of vecMul in its vector argument
  have hlhs : Tendsto (fun k => Matrix.vecMul (avg (φ k)) M j) atTop
      (𝓝 (Matrix.vecMul y M j)) := by
    unfold Matrix.vecMul Matrix.dotProduct
    apply tendsto_finset_sum
    intro i _
    exact (hconvj i).mul tendsto_const_nhds
  -- RHS: the correction term vanishes
  have hbound : ∀ N j', |seq N j' - seq 0 j'| ≤ 2 := by
    intro N j'
    have h1 := (hseqmem N).1 j'
    have h2 := (hseqmem 0).1 j'
    have h3 : seq N j' ≤ 1 := by
      have := (hseqmem N).2
      calc seq N j' ≤ ∑ i, seq N i :=
            Finset.single_le_sum (fun i _ => (hseqmem N).1 i)
              (Finset.mem_univ j')
        _ = 1 := this
    have h4 : seq 0 j' ≤ 1 := by
      have := (hseqmem 0).2
      calc seq 0 j' ≤ ∑ i, seq 0 i :=
            Finset.single_le_sum (fun i _ => (hseqmem 0).1 i)
              (Finset.mem_univ j')
        _ = 1 := this
    rw [abs_le]
    constructor <;> linarith
  have hcorr : Tendsto
      (fun k => ((φ k : ℝ) + 1)⁻¹ * (seq (φ k + 1) j - seq 0 j)) atTop
      (𝓝 0) := by
    have hg : Tendsto (fun k : ℕ => 2 / ((k : ℝ) + 1)) atTop (𝓝 0) := by
      have h2 : Tendsto (fun k : ℕ => 2 * (1 / ((k : ℝ) + 1))) atTop
          (𝓝 (2 * 0)) :=
        tendsto_one_div_add_atTop_nhds_zero_nat.const_mul 2
      simpa using h2
    refine squeeze_zero_norm ?_ hg
    · intro k
      have hk1 : k ≤ φ k := hφ.le_apply
      have hφk : (k : ℝ) + 1 ≤ (φ k : ℝ) + 1 := by
        have : (k : ℝ) ≤ (φ k : ℝ) := by exact_mod_cast hk1
        linarith
      have hkpos : (0 : ℝ) < (k : ℝ) + 1 := by positivity
      have hφpos : (0 : ℝ) < (φ k : ℝ) + 1 := by positivity
      rw [Real.norm_eq_abs, abs_mul, abs_inv,
        abs_of_pos hφpos]
      calc ((φ k : ℝ) + 1)⁻¹ * |seq (φ k + 1) j - seq 0 j| ≤
            ((φ k : ℝ) + 1)⁻¹ * 2 :=
            mul_le_mul_of_nonneg_left (hbound _ _)
              (le_of_lt (inv_pos.mpr hφpos))
        _ ≤ ((k : ℝ) + 1)⁻¹ * 2 := by
            apply mul_le_mul_of_nonneg_right _ (by norm_num)
            exact inv_anti₀ hkpos hφk
        _ = 2 / ((k : ℝ) + 1) := by ring
  have hrhs : Tendsto (fun k => avg (φ k) j +
      ((φ k : ℝ) + 1)⁻¹ * (seq (φ k + 1) j - seq 0 j)) atTop
      (𝓝 (y j + 0)) := (hconvj j).add hcorr
  have heq : (fun k => Matrix.vecMul (avg (φ k)) M j) =
      (fun k => avg (φ k) j +
        ((φ k : ℝ) + 1)⁻¹ * (seq (φ k + 1) j - seq 0 j)) := by
    funext k
    exact hkey (φ k) j
  rw [heq] at hlhs
  have := tendsto_nhds_unique hlhs hrhs
  rw [this]
  ring

/-- Non-negativity transfer: any rational solution of the stationary linear
system equals (after casting) the real stationary probability vector
guaranteed by exists_stationary_real, hence is entrywise non-negative. -/
theorem stationary_mc_nonneg_aux {m : ℕ}
    (P : Matrix (Fin (m + 1)) (Fin (m + 1)) ℚ)
    (hpos : ∀ i j, 0 ≤ P i j) (hrow : ∀ i, ∑ j, P i j = 1)
    (hdet : (qMat P).det ≠ 0) (x : Fin (m + 1) → ℚ)
    (hx : Matrix.vecMul x (qMat P) = eVec) :
    ∀ i, 0 ≤ x i := by
  classical
  set c : ℚ →+* ℝ := Rat.castHom ℝ with hc
  set Mr : Matrix (Fin (m + 1)) (Fin (m + 1)) ℝ := P.map c with hMr
  have hposR : ∀ i j, 0 ≤ Mr i j := by
    intro i j
    rw [hMr]
    simp only [Matrix.map_apply, hc, Rat.coe_castHom]
    exact_mod_cast hpos i j
  have hrowR : ∀ i, ∑ j, Mr i j = 1 := by
    intro i
    rw [hMr]
    simp only [Matrix.map_apply, hc, Rat.coe_castHom]
    exact_mod_cast hrow i
  obtain ⟨y, hy, hfix⟩ := exists_stationary_real Mr hposR hrowR (Nat.succ_pos m)
  set Qr : Matrix (Fin (m + 1)) (Fin (m + 1)) ℝ := (qMat P).map c with hQr
  -- y solves the cast linear system
  have hyq : Matrix.vecMul y Qr = fun i => c (eVec i) := by
    funext j
    rw [hQr]
    unfold Matrix.vecMul Matrix.dotProduct
    rcases eq_or_ne j (Fin.last m) with hj | hj
    · have : ∀ i, y i * ((qMat P).map c) i j = y i := by
        intro i
        rw [Matrix.map_apply]
        unfold qMat
        rw [hj]
        simp
      rw [Finset.sum_congr rfl (fun i _ => this i), hy.2, hj]
      simp [eVec]
    · have : ∀ i, y i * ((qMat P).map c) i j =
          y i * Mr i j - y i * (if i = j then 1 else 0) := by
        intro i
        rw [Matrix.map_apply]
        unfold qMat
        simp only [Matrix.of_apply, if_neg hj]
        rw [hMr]
        simp only [Matrix.map_apply, hc, Rat.coe_castHom]
        rcases eq_or_ne i j with h | h
        · simp only [if_pos h]
          push_cast
          ring
        · simp only [if_neg h]
          push_cast
          ring
      rw [Finset.sum_congr rfl (fun i _ => this i), Finset.sum_sub_distrib]
      have h1 : ∑ i, y i * Mr i j = y j := by
        have := congrFun hfix j
        unfold Matrix.vecMul Matrix.dotProduct at this
        exact this
      have h2 : ∑ i, y i * (if i = j then 1 else 0) = y j := by
        simp [mul_ite, Finset.sum_ite_eq']
      rw [h1, h2, eVec]
      simp [hj]
  -- the cast of x solves the same system
  have hxq : Matrix.vecMul (⇑c ∘ x) Qr = fun i => c (eVec i) := by
    funext j
    rw [hQr]
    rw [← RingHom.map_vecMul c (qMat P) x j, hx]
  -- nonsingularity over the reals
  have hdetR : Qr.det ≠ 0 := by
    rw [hQr, ← RingHom.mapMatrix_apply, ← RingHom.map_det]
    simpa [hc] using hdet
  -- uniqueness: cast x = y
  have huniq : (⇑c ∘ x) = y := by
    have hz : Matrix.vecMul ((⇑c ∘ x) - y) Qr = 0 := by
      rw [Matrix.sub_vecMul, hxq, hyq]
      simp
    have := congrArg
      (fun v => Matrix.vecMul v Qr⁻¹) hz
    dsimp only at this
    rw [Matrix.vecMul_vecMul,
      Matrix.mul_nonsing_inv _ (isUnit_iff_ne_zero.mpr hdetR),
      Matrix.vecMul_one, Matrix.zero_vecMul] at this
    have := sub_eq_zero.mp this
    exact this
  intro i
  have : c (x i) = y i := congrFun huniq i
  have hyi := hy.1 i
  rw [← this] at hyi
  simpa [hc] using hyi

/-- C3: for every square row-stochastic transition matrix (non-negative
entries, rows summing to one) whose derived linear system q is nonsingular,
stationary_mc returns a vector that sums to one, is entrywise non-negative,
and is a fixed point of right multiplication by P. -/
theorem stationary_mc_spec {m : ℕ}
    (P : Matrix (Fin (m + 1)) (Fin (m + 1)) ℚ)
    (hpos : ∀ i j, 0 ≤ P i j) (hrow : ∀ i, ∑ j, P i j = 1)
    (hdet : (qMat P).det ≠ 0) :
    ∑ i, stationary_mc P i = 1 ∧ (∀ i, 0 ≤ stationary_mc P i) ∧
      Matrix.vecMul (stationary_mc P) P = stationary_mc P := by
  have hsol := vecMul_stationary_mc P hdet
  exact ⟨sum_of_solves_q P _ hsol,
    stationary_mc_nonneg_aux P hpos hrow hdet _ hsol,
    fix_of_solves_q P hrow _ hsol⟩

set_option maxRecDepth 100000 in
/-- Witness for stationary_mc_spec at the model's own 2-state transition
matrix [[3/4, 1/4], [1/4, 3/4]]. -/
theorem stationary_mc_spec_witness :
    (∀ i j : Fin 2, (0 : ℚ) ≤ pi_mat i j) ∧
    (∀ i : Fin 2, ∑ j, pi_mat i j = 1) ∧
    (qMat pi_mat).det ≠ 0 ∧
    (∑ i, stationary_mc pi_mat i = 1 ∧
      (∀ i, 0 ≤ stationary_mc pi_mat i) ∧
      Matrix.vecMul (stationary_mc pi_mat) pi_mat = stationary_mc pi_mat) :=
  ⟨of_decide_eq_true (by with_unfolding_all rfl),
   of_decide_eq_true (by with_unfolding_all rfl),
   of_decide_eq_false (by with_unfolding_all rfl),
   stationary_mc_spec pi_mat
     (of_decide_eq_true (by with_unfolding_all rfl))
     (of_decide_eq_true (by with_unfolding_all rfl))
     (of_decide_eq_false (by with_unfolding_all rfl))⟩

set_option maxRecDepth 100000 in
/-- C7, as stated, fails: P_ce7 is square but not row-stochastic, yet
stationary_mc does not fail on it (the derived system is nonsingular, so
np.linalg.inv raises nothing) and happily returns the vector (1/2, 1/2).
No validation of the input is performed anywhere in the function. -/
theorem stationary_mc_validation_claim_false :
    ¬ (∀ (m : ℕ) (P : Matrix (Fin (m + 1)) (Fin (m + 1)) ℚ),
        (¬ ∀ i, ∑ j, P i j = 1) → stationary_mc_fails P) := by
  intro h
  have hns : ¬ ∀ i : Fin 2, ∑ j, P_ce7 i j = 1 :=
    of_decide_eq_false (by with_unfolding_all rfl)
  have hfail := h 1 P_ce7 hns
  unfold stationary_mc_fails at hfail
  have : (qMat P_ce7).det ≠ 0 :=
    of_decide_eq_false (by with_unfolding_all rfl)
  exact this hfail

/-- C7 (amended): stationary_mc validates nothing.  On every square input
whose derived linear system is nonsingular it succeeds - row-stochastic or
not - and returns the unique solution of x q = e (the source's only
failure mode is a singular system inside np.linalg.inv; the
distribution-method name and the plot flags are what setup validates). -/
theorem stationary_mc_no_validation {m : ℕ}
    (P : Matrix (Fin (m + 1)) (Fin (m + 1)) ℚ)
    (hdet : (qMat P).det ≠ 0) :
    ¬ stationary_mc_fails P ∧
      Matrix.vecMul (stationary_mc P) (qMat P) = eVec :=
  ⟨hdet, vecMul_stationary_mc P hdet⟩

set_option maxRecDepth 100000 in
/-- Witness for stationary_mc_no_validation at the non-row-stochastic
matrix P_ce7, on which the returned vector is (1/2, 1/2). -/
theorem stationary_mc_no_validation_witness :
    (qMat P_ce7).det ≠ 0 ∧
    (¬ stationary_mc_fails P_ce7 ∧
      Matrix.vecMul (stationary_mc P_ce7) (qMat P_ce7) = eVec) ∧
    stationary_mc P_ce7 = ![1/2, 1/2] :=
  ⟨of_decide_eq_false (by with_unfolding_all rfl),
   stationary_mc_no_validation P_ce7
     (of_decide_eq_false (by with_unfolding_all rfl)),
   of_decide_eq_true (by with_unfolding_all rfl)⟩

/-- Splitting weights are non-negative on a strictly increasing fine
grid. -/
theorem dweight_nonneg {Naf : ℕ} {grid_a_fine : Fin Naf → ℚ}
    (hg : ∀ i j : Fin Naf, i < j → grid_a_fine i < grid_a_fine j)
    (a_intp : ℚ) (c : Fin Naf) :
    0 ≤ dweight grid_a_fine a_intp c := by
  have hNaf : 0 < Naf := lt_of_le_of_lt (Nat.zero_le _) c.isLt
  unfold dweight
  by_cases h1 : a_intp ≤ idx grid_a_fine 0
  · rw [if_pos h1]
    split <;> norm_num
  · rw [if_neg h1]
    by_cases h2 : idx grid_a_fine (Naf - 1) ≤ a_intp
    · rw [if_pos h2]
      split <;> norm_num
    · rw [if_neg h2]
      push_neg at h1 h2
      obtain ⟨hj1, hj2, hbl, hbr⟩ := count_le_bracket hg hNaf h1 h2
      set j := count_le grid_a_fine a_intp with hj
      have hjn : j - 1 < Naf := by omega
      have hjn' : j < Naf := by omega
      have hxlt : idx grid_a_fine (j - 1) < idx grid_a_fine j := by
        have e1 : idx grid_a_fine (j - 1) = grid_a_fine ⟨j - 1, hjn⟩ := by
          simp [idx, hjn]
        have e2 : idx grid_a_fine j = grid_a_fine ⟨j, hjn'⟩ := by
          simp [idx, hjn']
        rw [e1, e2]
        exact hg _ _ (by rw [Fin.lt_def]; simp; omega)
      have hp0 : 0 ≤ (a_intp - idx grid_a_fine (j - 1)) /
          (idx grid_a_fine j - idx grid_a_fine (j - 1)) :=
        div_nonneg (by linarith) (by linarith)
      have hp1 : (a_intp - idx grid_a_fine (j - 1)) /
          (idx grid_a_fine j - idx grid_a_fine (j - 1)) ≤ 1 := by
        rw [div_le_one (by linarith)]
        linarith
      dsimp only
      split
      · exact hp0
      · split
        · linarith
        · exact le_refl 0

/-- Splitting weights sum to one over the columns. -/
theorem dweight_sum {Naf : ℕ} {grid_a_fine : Fin Naf → ℚ}
    (hg : ∀ i j : Fin Naf, i < j → grid_a_fine i < grid_a_fine j)
    (hNaf : 0 < Naf) (a_intp : ℚ) :
    ∑ c, dweight grid_a_fine a_intp c = 1 := by
  unfold dweight
  by_cases h1 : a_intp ≤ idx grid_a_fine 0
  · rw [Finset.sum_congr rfl (fun c _ => if_pos h1)]
    rw [Finset.sum_eq_single (⟨0, hNaf⟩ : Fin Naf)]
    · rw [if_pos rfl]
    · intro c _ hc
      rw [if_neg]
      intro hv
      exact hc (Fin.ext hv)
    · intro habs
      exact absurd (Finset.mem_univ _) habs
  · rw [Finset.sum_congr rfl (fun c _ => if_neg h1)]
    by_cases h2 : idx grid_a_fine (Naf - 1) ≤ a_intp
    · rw [Finset.sum_congr rfl (fun c _ => if_pos h2)]
      have hub : Naf - 1 < Naf := Nat.sub_lt hNaf Nat.one_pos
      rw [Finset.sum_eq_single (⟨Naf - 1, hub⟩ : Fin Naf)]
      · rw [if_pos rfl]
      · intro c _ hc
        rw [if_neg]
        intro hv
        exact hc (Fin.ext hv)
      · intro habs
        exact absurd (Finset.mem_univ _) habs
    · rw [Finset.sum_congr rfl (fun c _ => if_neg h2)]
      push_neg at h1 h2
      obtain ⟨hj1, hj2, hbl, hbr⟩ := count_le_bracket hg hNaf h1 h2
      set j := count_le grid_a_fine a_intp with hj
      have hjn : j - 1 < Naf := by omega
      have hjn' : j < Naf := by omega
      set p0 := (a_intp - idx grid_a_fine (j - 1)) /
        (idx grid_a_fine j - idx grid_a_fine (j - 1)) with hp0
      have hpair : (⟨j, hjn'⟩ : Fin Naf) ≠ ⟨j - 1, hjn⟩ := by
        intro h
        have := Fin.val_eq_of_eq h
        simp at this
        omega
      have hzero : ∀ c : Fin Naf,
          c ∉ ({⟨j, hjn'⟩, ⟨j - 1, hjn⟩} : Finset (Fin Naf)) →
          (if c.val = j then p0 else if c.val = j - 1 then 1 - p0 else 0)
            = 0 := by
        intro c hc
        simp only [Finset.mem_insert, Finset.mem_singleton] at hc
        push_neg at hc
        have hv1 : c.val ≠ j := fun hv => hc.1 (Fin.ext hv)
        have hv2 : c.val ≠ j - 1 := fun hv => hc.2 (Fin.ext hv)
        rw [if_neg hv1, if_neg hv2]
      calc ∑ c : Fin Naf, (if c.val = j then p0 else
              if c.val = j - 1 then 1 - p0 else 0)
          = ∑ c ∈ ({⟨j, hjn'⟩, ⟨j - 1, hjn⟩} : Finset (Fin Naf)),
              (if c.val = j then p0 else
                if c.val = j - 1 then 1 - p0 else 0) :=
            (Finset.sum_subset (Finset.subset_univ _)
              (fun c _ hc => hzero c hc)).symm
        _ = p0 + (1 - p0) := by
            rw [Finset.sum_pair hpair]
            congr 1
            · rw [if_pos rfl]
            · rw [if_neg (by simp; omega), if_pos rfl]
        _ = 1 := by ring

/-- A forward push preserves non-negativity. -/
theorem discrete_push_nonneg {Nz Na Naf : ℕ} {grid_a : Fin Na → ℚ}
    {grid_a_fine : Fin Naf → ℚ} {pol_sav : Fin Nz → Fin Na → ℚ}
    {pi : Fin Nz → Fin Nz → ℚ} {old : Fin Nz → Fin Naf → ℚ}
    (hg : ∀ i j : Fin Naf, i < j → grid_a_fine i < grid_a_fine j)
    (hpi : ∀ iz izz, 0 ≤ pi iz izz) (hold : ∀ iz ia, 0 ≤ old iz ia) :
    ∀ izz c, 0 ≤ discrete_push grid_a grid_a_fine pol_sav pi old izz c := by
  intro izz c
  unfold discrete_push
  apply Finset.sum_nonneg
  intro iz _
  apply Finset.sum_nonneg
  intro ia _
  exact mul_nonneg (mul_nonneg (hold iz ia) (hpi iz izz))
    (dweight_nonneg hg _ c)

/-- A forward push preserves total mass: the splitting weights sum to one
over columns and the transition matrix rows sum to one. -/
theorem discrete_push_total {Nz Na Naf : ℕ} {grid_a : Fin Na → ℚ}
    {grid_a_fine : Fin Naf → ℚ} {pol_sav : Fin Nz → Fin Na → ℚ}
    {pi : Fin Nz → Fin Nz → ℚ} {old : Fin Nz → Fin Naf → ℚ}
    (hg : ∀ i j : Fin Naf, i < j → grid_a_fine i < grid_a_fine j)
    (hNaf : 0 < Naf) (hpirow : ∀ iz, ∑ izz, pi iz izz = 1) :
    pdf_total (discrete_push grid_a grid_a_fine pol_sav pi old) =
      pdf_total old := by
  have key : ∀ iz ia, ∑ izz : Fin Nz, ∑ c : Fin Naf,
      old iz ia * pi iz izz * dweight grid_a_fine
        (np_interp grid_a (pol_sav iz) (grid_a_fine ia)) c = old iz ia := by
    intro iz ia
    calc ∑ izz : Fin Nz, ∑ c : Fin Naf, old iz ia * pi iz izz *
          dweight grid_a_fine
            (np_interp grid_a (pol_sav iz) (grid_a_fine ia)) c
        = ∑ izz : Fin Nz, old iz ia * pi iz izz *
            ∑ c : Fin Naf, dweight grid_a_fine
              (np_interp grid_a (pol_sav iz) (grid_a_fine ia)) c := by
          apply Finset.sum_congr rfl
          intro izz _
          rw [Finset.mul_sum]
      _ = ∑ izz : Fin Nz, old iz ia * pi iz izz := by
          apply Finset.sum_congr rfl
          intro izz _
          rw [dweight_sum hg hNaf, mul_one]
      _ = old iz ia := by
          rw [← Finset.mul_sum, hpirow, mul_one]
  unfold pdf_total discrete_push
  calc ∑ izz : Fin Nz, ∑ c : Fin Naf, ∑ iz, ∑ ia,
        old iz ia * pi iz izz * dweight grid_a_fine
          (np_interp grid_a (pol_sav iz) (grid_a_fine ia)) c
      = ∑ izz : Fin Nz, ∑ iz, ∑ ia, ∑ c : Fin Naf,
          old iz ia * pi iz izz * dweight grid_a_fine
            (np_interp grid_a (pol_sav iz) (grid_a_fine ia)) c := by
        apply Finset.sum_congr rfl
        intro izz _
        conv_lhs => rw [Finset.sum_comm]
        apply Finset.sum_congr rfl
        intro iz _
        conv_lhs => rw [Finset.sum_comm]
    _ = ∑ iz, ∑ ia, ∑ izz : Fin Nz, ∑ c : Fin Naf,
          old iz ia * pi iz izz * dweight grid_a_fine
            (np_interp grid_a (pol_sav iz) (grid_a_fine ia)) c := by
        conv_lhs => rw [Finset.sum_comm]
        apply Finset.sum_congr rfl
        intro iz _
        conv_lhs => rw [Finset.sum_comm]
    _ = ∑ iz, ∑ ia, old iz ia := by
        apply Finset.sum_congr rfl
        intro iz _
        apply Finset.sum_congr rfl
        intro ia _
        exact key iz ia

/-- When the total is one, the per-sweep renormalization is the
identity. -/
theorem pdf_normalize_total_one {Nz Naf : ℕ}
    {pdf : Fin Nz → Fin Naf → ℚ} (h : pdf_total pdf = 1) :
    pdf_normalize pdf = pdf := by
  funext iz ia
  unfold pdf_normalize
  rw [h, div_one]

/-- The invariant of the forward iteration: whatever sweep the loop stops
at, the returned table is entrywise non-negative with total mass one. -/
theorem dsd_go_inv {Nz Na Naf : ℕ} {grid_a : Fin Na → ℚ}
    {grid_a_fine : Fin Naf → ℚ} {pol_sav : Fin Nz → Fin Na → ℚ}
    {pi : Fin Nz → Fin Nz → ℚ} {tol : ℚ}
    (hg : ∀ i j : Fin Naf, i < j → grid_a_fine i < grid_a_fine j)
    (hNaf : 0 < Naf) (hpi : ∀ iz izz, 0 ≤ pi iz izz)
    (hpirow : ∀ iz, ∑ izz, pi iz izz = 1) :
    ∀ (rem it : ℕ) (old : Fin Nz → Fin Naf → ℚ),
      (∀ iz ia, 0 ≤ old iz ia) → pdf_total old = 1 →
      (∀ iz ia, 0 ≤
          (dsd_go grid_a grid_a_fine pol_sav pi tol old rem it).1 iz ia) ∧
        pdf_total
          (dsd_go grid_a grid_a_fine pol_sav pi tol old rem it).1 = 1 := by
  intro rem
  induction rem with
  | zero =>
    intro it old h0 h1
    exact ⟨h0, h1⟩
  | succ r ih =>
    intro it old h0 h1
    have htp : pdf_total (discrete_push grid_a grid_a_fine pol_sav pi old)
        = 1 := by
      rw [discrete_push_total hg hNaf hpirow, h1]
    have hnorm : pdf_normalize
        (discrete_push grid_a grid_a_fine pol_sav pi old) =
        discrete_push grid_a grid_a_fine pol_sav pi old :=
      pdf_normalize_total_one htp
    have hnew0 : ∀ iz ia, 0 ≤ pdf_normalize
        (discrete_push grid_a grid_a_fine pol_sav pi old) iz ia := by
      rw [hnorm]
      exact discrete_push_nonneg hg hpi h0
    have hnew1 : pdf_total (pdf_normalize
        (discrete_push grid_a grid_a_fine pol_sav pi old)) = 1 := by
      rw [hnorm, htp]
    simp only [dsd_go]
    split_ifs with hc hr
    · exact ⟨hnew0, hnew1⟩
    · exact ⟨hnew0, hnew1⟩
    · exact ih (it + 1) _ hnew0 hnew1

/-- The normalized eigenvector reshape sums to one whenever the selected
eigenvector has nonzero total. -/
theorem eigen_density_from_vec_sum {Nz Naf : ℕ} (v : Fin (Nz * Naf) → ℚ)
    (hv : ∑ c, v c ≠ 0) :
    ∑ iz, ∑ ia, eigen_density_from_vec Nz Naf v iz ia = 1 := by
  unfold eigen_density_from_vec
  simp only [← Finset.sum_div]
  have hre : ∑ c, v c = ∑ p : Fin Nz × Fin Naf, v (finProdFinEquiv p) :=
    (Equiv.sum_comp finProdFinEquiv v).symm
  have hprod : ∑ p : Fin Nz × Fin Naf, v (finProdFinEquiv p) =
      ∑ iz : Fin Nz, ∑ ia : Fin Naf, v (finProdFinEquiv (iz, ia)) :=
    Fintype.sum_prod_type _
  have hcoord : ∀ (iz : Fin Nz) (ia : Fin Naf),
      v (finProdFinEquiv (iz, ia)) =
        v ⟨iz.val * Naf + ia.val, by
          calc iz.val * Naf + ia.val < iz.val * Naf + Naf :=
                Nat.add_lt_add_left ia.isLt _
            _ = (iz.val + 1) * Naf := (Nat.succ_mul _ _).symm
            _ ≤ Nz * Naf := Nat.mul_le_mul_right _ iz.isLt⟩ := by
    intro iz ia
    congr 1
    apply Fin.ext
    show ia.val + Naf * iz.val = iz.val * Naf + ia.val
    rw [Nat.mul_comm Naf iz.val, Nat.add_comm]
  rw [show (∑ iz : Fin Nz, ∑ ia : Fin Naf,
      v ⟨iz.val * Naf + ia.val, _⟩) = ∑ c, v c from by
    rw [hre, hprod]
    apply Finset.sum_congr rfl
    intro iz _
    apply Finset.sum_congr rfl
    intro ia _
    exact (hcoord iz ia).symm]
  exact div_self hv

/-- C4 (amended): the discrete forward-iteration engine always returns a
density that is entrywise non-negative and sums to one (for a
row-stochastic transition matrix, a stationary income distribution, and a
strictly increasing fine grid), and the eigenvector engine's output sums to
one whenever the selected eigenvector has nonzero total - but the latter
need not be entrywise non-negative. -/
theorem distribution_engine_density_spec :
    (∀ (Nz Na Naf : ℕ) (grid_a : Fin Na → ℚ) (grid_a_fine : Fin Naf → ℚ)
       (pol_sav : Fin Nz → Fin Na → ℚ) (pi : Fin Nz → Fin Nz → ℚ)
       (pi_stat : Fin Nz → ℚ) (maxit : ℕ) (tol : ℚ),
       (∀ i j : Fin Naf, i < j → grid_a_fine i < grid_a_fine j) →
       (∀ iz izz, 0 ≤ pi iz izz) → (∀ iz, ∑ izz, pi iz izz = 1) →
       (∀ iz, 0 ≤ pi_stat iz) → (∑ iz, pi_stat iz = 1) → 0 < Naf →
       (∀ iz ia, 0 ≤ (discrete_stationary_density grid_a grid_a_fine
           pol_sav pi pi_stat maxit tol).1 iz ia) ∧
         pdf_total (discrete_stationary_density grid_a grid_a_fine
           pol_sav pi pi_stat maxit tol).1 = 1) ∧
    (∀ (Nz Naf : ℕ) (v : Fin (Nz * Naf) → ℚ), (∑ c, v c) ≠ 0 →
       ∑ iz, ∑ ia, eigen_density_from_vec Nz Naf v iz ia = 1) := by
  constructor
  · intro Nz Na Naf grid_a grid_a_fine pol_sav pi pi_stat maxit tol
      hg hpi hpirow hps0 hps1 hNaf
    have hinit0 : ∀ (iz : Fin Nz) (ia : Fin Naf),
        (0 : ℚ) ≤ (fun (iz : Fin Nz) (_ : Fin Naf) =>
          pi_stat iz / (Naf : ℚ)) iz ia := by
      intro iz ia
      exact div_nonneg (hps0 iz) (Nat.cast_nonneg _)
    have hinit1 : pdf_total
        (fun (iz : Fin Nz) (_ : Fin Naf) => pi_stat iz / (Naf : ℚ)) = 1 := by
      unfold pdf_total
      have hcast : ((Naf : ℚ)) ≠ 0 :=
        Nat.cast_ne_zero.mpr (Nat.pos_iff_ne_zero.mp hNaf)
      have : ∀ iz : Fin Nz,
          ∑ _ia : Fin Naf, pi_stat iz / (Naf : ℚ) = pi_stat iz := by
        intro iz
        rw [Finset.sum_const, Finset.card_univ, Fintype.card_fin,
          nsmul_eq_mul, mul_comm, div_mul_cancel₀ _ hcast]
      rw [Finset.sum_congr rfl (fun iz _ => this iz)]
      exact hps1
    exact dsd_go_inv hg hNaf hpi hpirow maxit 0 _ hinit0 hinit1
  · intro Nz Naf v hv
    exact eigen_density_from_vec_sum v hv

set_option maxRecDepth 400000 in
/-- C4, as stated, fails for the eigenvector engine: with one income state
(pi = [[1]], row-stochastic), the keep-assets policy on the two-point grid
0, 1 the engine's transition matrix Q is the identity, so the mixed-sign
vector (3/2, -1/2) is a legitimate unit-eigenvalue eigenvector with total
1; the returned density equals it and has the negative entry -1/2. -/
theorem distribution_engine_nonneg_claim_false :
    ¬ (∀ (Nz Na Naf : ℕ) (grid_a : Fin Na → ℚ)
         (grid_a_fine : Fin Naf → ℚ) (pol_sav : Fin Nz → Fin Na → ℚ)
         (pi : Fin Nz → Fin Nz → ℚ) (v : Fin (Nz * Naf) → ℚ),
         (∀ iz izz, 0 ≤ pi iz izz) → (∀ iz, ∑ izz, pi iz izz = 1) →
         Matrix.vecMul v (eigenQ grid_a grid_a_fine pol_sav pi) = v →
         (∑ c, v c) ≠ 0 →
         ∀ iz ia, 0 ≤ eigen_density_from_vec Nz Naf v iz ia) := by
  intro h
  have h1 := h 1 2 2 grid01 grid01 pol01 pi1 v_ce4
    (of_decide_eq_true (by with_unfolding_all rfl))
    (of_decide_eq_true (by with_unfolding_all rfl))
    (of_decide_eq_true (by with_unfolding_all rfl))
    (of_decide_eq_false (by with_unfolding_all rfl))
    0 1
  have h2 : eigen_density_from_vec 1 2 v_ce4 0 1 = -1/2 :=
    of_decide_eq_true (by with_unfolding_all rfl)
  rw [h2] at h1
  norm_num at h1

set_option maxRecDepth 400000 in
/-- Witness for distribution_engine_density_spec: the discrete engine on
the two-point grid with the model's transition matrix, and the eigenvector
normalization on a positive vector. -/
theorem distribution_engine_density_spec_witness :
    ((∀ iz ia, 0 ≤ (discrete_stationary_density grid01 grid01 pol02
        pi_model pi_stat2 5 (1/1000000)).1 iz ia) ∧
      pdf_total (discrete_stationary_density grid01 grid01 pol02
        pi_model pi_stat2 5 (1/1000000)).1 = 1) ∧
    (∑ iz, ∑ ia, eigen_density_from_vec 1 2 v_w4 iz ia = 1) :=
  ⟨distribution_engine_density_spec.1 2 2 2 grid01 grid01 pol02 pi_model
      pi_stat2 5 (1/1000000)
      (of_decide_eq_true (by with_unfolding_all rfl))
      (of_decide_eq_true (by with_unfolding_all rfl))
      (of_decide_eq_true (by with_unfolding_all rfl))
      (of_decide_eq_true (by with_unfolding_all rfl))
      (of_decide_eq_true (by with_unfolding_all rfl))
      (by norm_num),
   distribution_engine_density_spec.2 1 2 v_w4
      (of_decide_eq_false (by with_unfolding_all rfl))⟩

/-- Summing a pointwise update replaces the old entry by the new value. -/
theorem sum_update_univ {n : ℕ} (f : Fin n → ℚ) (x : Fin n) (v : ℚ) :
    ∑ c, Function.update f x v c = ∑ c, f c - f x + v := by
  rw [Finset.sum_update_of_mem (Finset.mem_univ x), ← Finset.erase_eq,
    Finset.sum_erase_eq_sub (Finset.mem_univ x)]
  ring

/-- Folding double updates at pairwise-distinct fresh columns adds exactly
the written masses to the total. -/
theorem fold_update2_sum {N Nz : ℕ} (cA cB : Fin Nz → Fin N)
    (vA vB : Fin Nz → ℚ) :
    ∀ (l : List (Fin Nz)), l.Nodup →
      (∀ zz, cA zz ≠ cB zz) →
      (∀ zz zz', zz ≠ zz' →
        cA zz ≠ cA zz' ∧ cA zz ≠ cB zz' ∧ cB zz ≠ cA zz' ∧
          cB zz ≠ cB zz') →
      ∀ (row : Fin N → ℚ),
        (∀ zz ∈ l, row (cA zz) = 0 ∧ row (cB zz) = 0) →
        ∑ c, (l.foldl (fun r zz =>
            Function.update (Function.update r (cA zz) (vA zz)) (cB zz)
              (vB zz)) row) c =
          ∑ c, row c + (l.map (fun zz => vA zz + vB zz)).sum := by
  intro l
  induction l with
  | nil =>
    intro _ _ _ row _
    simp
  | cons a l ih =>
    intro hnd hAB hdis row hz
    have hnd' : l.Nodup := (List.nodup_cons.mp hnd).2
    have hanotin : a ∉ l := (List.nodup_cons.mp hnd).1
    have hza := hz a (List.mem_cons_self a l)
    set row' := Function.update (Function.update row (cA a) (vA a)) (cB a)
      (vB a) with hrow'
    have hz' : ∀ zz ∈ l, row' (cA zz) = 0 ∧ row' (cB zz) = 0 := by
      intro zz hzz
      have hne : zz ≠ a := fun h => hanotin (h ▸ hzz)
      obtain ⟨d1, d2, d3, d4⟩ := hdis zz a hne
      constructor
      · rw [hrow', Function.update_apply, if_neg d2,
          Function.update_apply, if_neg d1]
        exact (hz zz (List.mem_cons_of_mem a hzz)).1
      · rw [hrow', Function.update_apply, if_neg d4,
          Function.update_apply, if_neg d3]
        exact (hz zz (List.mem_cons_of_mem a hzz)).2
    have hBA : cB a ≠ cA a := (hAB a).symm
    have hsum' : ∑ c, row' c = ∑ c, row c + (vA a + vB a) := by
      rw [hrow', sum_update_univ, sum_update_univ,
        Function.update_apply, if_neg hBA, hza.1, hza.2]
      ring
    show ∑ c, (l.foldl (fun r zz =>
        Function.update (Function.update r (cA zz) (vA zz)) (cB zz)
          (vB zz)) row') c = _
    rw [ih hnd' hAB hdis row' hz', hsum', List.map_cons, List.sum_cons]
    ring

/-- The foldl of eigenQrow, for any splitting weight p written at offsets
j and j - 1 with 1 <= j <= Naf - 1, accumulates exactly one transition-row
mass: the 2 Nz written columns are pairwise distinct and each block
receives p*pi + (1-p)*pi. -/
theorem eigenQrow_core_sum {Nz Naf : ℕ} (pi_row : Fin Nz → ℚ) (p : ℚ)
    (j : ℕ) (hNaf : 0 < Naf) (hj1 : 1 ≤ j) (hj2 : j ≤ Naf - 1)
    (hN : 0 < Nz * Naf) :
    ∑ c, ((List.finRange Nz).foldl
      (fun (row : Fin (Nz * Naf) → ℚ) (i_zz : Fin Nz) =>
        Function.update
          (Function.update row
            ⟨(i_zz.val * Naf + j) % (Nz * Naf), Nat.mod_lt _ hN⟩
            (p * pi_row i_zz))
          ⟨(i_zz.val * Naf + j + Nz * Naf - 1) % (Nz * Naf),
            Nat.mod_lt _ hN⟩
          ((1 - p) * pi_row i_zz))
      (fun _ => 0)) c = ∑ izz, pi_row izz := by
  have hjNaf : j < Naf := by omega
  have hvA : ∀ zz : Fin Nz, zz.val * Naf + j < Nz * Naf := by
    intro zz
    calc zz.val * Naf + j < zz.val * Naf + Naf := by omega
      _ = (zz.val + 1) * Naf := (Nat.succ_mul _ _).symm
      _ ≤ Nz * Naf := Nat.mul_le_mul_right _ zz.isLt
  have hcolA : ∀ zz : Fin Nz,
      (zz.val * Naf + j) % (Nz * Naf) = zz.val * Naf + j :=
    fun zz => Nat.mod_eq_of_lt (hvA zz)
  have hcolB : ∀ zz : Fin Nz,
      (zz.val * Naf + j + Nz * Naf - 1) % (Nz * Naf) =
        zz.val * Naf + (j - 1) := by
    intro zz
    have h1 : zz.val * Naf + j + Nz * Naf - 1 =
        (zz.val * Naf + (j - 1)) + Nz * Naf := by omega
    rw [h1, Nat.add_mod_right, Nat.mod_eq_of_lt]
    have := hvA zz
    omega
  have hdecomp : ∀ (zz zz' : Fin Nz) (k k' : ℕ), k < Naf → k' < Naf →
      zz.val * Naf + k = zz'.val * Naf + k' → zz = zz' ∧ k = k' := by
    intro zz zz' k k' hk hk' heq
    have e1 : (zz.val * Naf + k) / Naf = zz.val := by
      rw [Nat.mul_comm, Nat.mul_add_div hNaf, Nat.div_eq_of_lt hk,
        Nat.add_zero]
    have e2 : (zz'.val * Naf + k') / Naf = zz'.val := by
      rw [Nat.mul_comm, Nat.mul_add_div hNaf, Nat.div_eq_of_lt hk',
        Nat.add_zero]
    have hzz : zz.val = zz'.val := by
      rw [← e1, ← e2, heq]
    refine ⟨Fin.ext hzz, ?_⟩
    rw [hzz] at heq
    omega
  set cA : Fin Nz → Fin (Nz * Naf) := fun zz =>
    ⟨(zz.val * Naf + j) % (Nz * Naf), Nat.mod_lt _ hN⟩ with hcA
  set cB : Fin Nz → Fin (Nz * Naf) := fun zz =>
    ⟨(zz.val * Naf + j + Nz * Naf - 1) % (Nz * Naf), Nat.mod_lt _ hN⟩
    with hcB
  have hAB : ∀ zz, cA zz ≠ cB zz := by
    intro zz h
    have := congrArg Fin.val h
    rw [hcA, hcB] at this
    simp only [] at this
    rw [hcolA zz, hcolB zz] at this
    omega
  have hdis : ∀ zz zz', zz ≠ zz' →
      cA zz ≠ cA zz' ∧ cA zz ≠ cB zz' ∧ cB zz ≠ cA zz' ∧
        cB zz ≠ cB zz' := by
    intro zz zz' hne
    refine ⟨?_, ?_, ?_, ?_⟩
    · intro h
      have := congrArg Fin.val h
      rw [hcA] at this
      simp only [] at this
      rw [hcolA zz, hcolA zz'] at this
      exact hne (hdecomp zz zz' j j hjNaf hjNaf this).1
    · intro h
      have := congrArg Fin.val h
      rw [hcA, hcB] at this
      simp only [] at this
      rw [hcolA zz, hcolB zz'] at this
      exact hne (hdecomp zz zz' j (j - 1) hjNaf (by omega) this).1
    · intro h
      have := congrArg Fin.val h
      rw [hcA, hcB] at this
      simp only [] at this
      rw [hcolB zz, hcolA zz'] at this
      exact hne (hdecomp zz zz' (j - 1) j (by omega) hjNaf this).1
    · intro h
      have := congrArg Fin.val h
      rw [hcB] at this
      simp only [] at this
      rw [hcolB zz, hcolB zz'] at this
      exact hne (hdecomp zz zz' (j - 1) (j - 1) (by omega) (by omega)
        this).1
  rw [show (fun (row : Fin (Nz * Naf) → ℚ) (i_zz : Fin Nz) =>
      Function.update
        (Function.update row
          ⟨(i_zz.val * Naf + j) % (Nz * Naf), Nat.mod_lt _ hN⟩
          (p * pi_row i_zz))
        ⟨(i_zz.val * Naf + j + Nz * Naf - 1) % (Nz * Naf),
          Nat.mod_lt _ hN⟩
        ((1 - p) * pi_row i_zz)) =
    (fun (r : Fin (Nz * Naf) → ℚ) (zz : Fin Nz) =>
      Function.update (Function.update r (cA zz) (p * pi_row zz)) (cB zz)
        ((1 - p) * pi_row zz)) from rfl]
  rw [fold_update2_sum cA cB (fun zz => p * pi_row zz)
    (fun zz => (1 - p) * pi_row zz) (List.finRange Nz)
    (List.nodup_finRange Nz) hAB hdis (fun _ => 0)
    (fun zz _ => ⟨rfl, rfl⟩)]
  rw [Finset.sum_const, smul_zero, zero_add]
  rw [show ((List.finRange Nz).map
      (fun zz => p * pi_row zz + (1 - p) * pi_row zz)).sum =
    ∑ zz, (p * pi_row zz + (1 - p) * pi_row zz) from
    (Fin.sum_univ_def _).symm]
  apply Finset.sum_congr rfl
  intro zz _
  ring

/-- Helper: on a strictly increasing pair of grids sharing their minimum,
with a savings policy bounded below by the grid minimum, each row of the
eigenvector engine's transition matrix (in its (i_z, i_a) presentation)
sums to the corresponding row sum of the income transition matrix. -/
theorem eigenQrow_sum {Nz Na Naf : ℕ} {grid_a : Fin Na → ℚ}
    {grid_a_fine : Fin Naf → ℚ} {pol_sav : Fin Nz → Fin Na → ℚ}
    {pi : Fin Nz → Fin Nz → ℚ}
    (hga : ∀ i j : Fin Na, i < j → grid_a i < grid_a j)
    (hgaf : ∀ i j : Fin Naf, i < j → grid_a_fine i < grid_a_fine j)
    (hNa : 0 < Na) (hNaf : 2 ≤ Naf)
    (hshare : idx grid_a_fine 0 = idx grid_a 0)
    (hpol : ∀ (z : Fin Nz) (a : Fin Na), idx grid_a 0 ≤ pol_sav z a)
    (hpirow : ∀ iz, ∑ izz, pi iz izz = 1)
    (i_z : Fin Nz) (i_a : Fin Naf) :
    ∑ c, eigenQrow grid_a grid_a_fine pol_sav pi i_z i_a c = 1 := by
  have hNaf0 : 0 < Naf := by omega
  have hNz : 0 < Nz := lt_of_le_of_lt (Nat.zero_le _) i_z.isLt
  have hN : 0 < Nz * Naf := Nat.mul_pos hNz hNaf0
  have hai : idx grid_a_fine 0 ≤
      np_interp grid_a (pol_sav i_z) (grid_a_fine i_a) := by
    rw [hshare]
    exact np_interp_lower hNa hga (hpol i_z) _
  have hidx0 : idx grid_a_fine 0 = grid_a_fine ⟨0, hNaf0⟩ := by
    simp [idx, hNaf0]
  have hub : Naf - 1 < Naf := by omega
  have hidxl : idx grid_a_fine (Naf - 1) = grid_a_fine ⟨Naf - 1, hub⟩ := by
    simp [idx, hub]
  have hc1 : 1 ≤ count_le grid_a_fine
      (np_interp grid_a (pol_sav i_z) (grid_a_fine i_a)) := by
    have := (count_le_iff hgaf
      (np_interp grid_a (pol_sav i_z) (grid_a_fine i_a))
      ⟨0, hNaf0⟩).mp (by rw [← hidx0]; exact hai)
    omega
  have hcNaf : count_le grid_a_fine
      (np_interp grid_a (pol_sav i_z) (grid_a_fine i_a)) ≤ Naf := by
    unfold count_le
    calc (Finset.univ.filter _).card ≤ Finset.univ.card :=
          Finset.card_filter_le _ _
      _ = Naf := by rw [Finset.card_univ, Fintype.card_fin]
  simp only [eigenQrow]
  refine (eigenQrow_core_sum (fun izz => pi i_z izz) _ _ hNaf0 ?_ ?_
    hN).trans (hpirow i_z)
  · by_cases h1 : np_interp grid_a (pol_sav i_z) (grid_a_fine i_a) ≤
        idx grid_a_fine 0
    · rw [if_pos h1]
      exact hc1
    · rw [if_neg h1]
      by_cases h2 : idx grid_a_fine (Naf - 1) ≤
          np_interp grid_a (pol_sav i_z) (grid_a_fine i_a)
      · rw [if_pos h2]
        have := (count_le_iff hgaf
          (np_interp grid_a (pol_sav i_z) (grid_a_fine i_a))
          ⟨Naf - 1, hub⟩).mp (by rw [← hidxl]; exact h2)
        have h' : Naf - 1 < count_le grid_a_fine
            (np_interp grid_a (pol_sav i_z) (grid_a_fine i_a)) := this
        simp only []
        omega
      · rw [if_neg h2]
        exact hc1
  · by_cases h1 : np_interp grid_a (pol_sav i_z) (grid_a_fine i_a) ≤
        idx grid_a_fine 0
    · rw [if_pos h1]
      have heq : np_interp grid_a (pol_sav i_z) (grid_a_fine i_a) =
          idx grid_a_fine 0 := le_antisymm h1 hai
      have hle1 : count_le grid_a_fine
          (np_interp grid_a (pol_sav i_z) (grid_a_fine i_a)) ≤ 1 := by
        by_contra hc
        push_neg at hc
        have h2lt : (1 : ℕ) < Naf := by omega
        have hmem := (count_le_iff hgaf
          (np_interp grid_a (pol_sav i_z) (grid_a_fine i_a))
          ⟨1, h2lt⟩).mpr hc
        rw [heq, hidx0] at hmem
        have hlt : grid_a_fine ⟨0, hNaf0⟩ < grid_a_fine ⟨1, h2lt⟩ :=
          hgaf _ _ (by rw [Fin.lt_def]; norm_num)
        exact absurd hmem (not_le.mpr hlt)
      simp only []
      omega
    · rw [if_neg h1]
      push_neg at h1
      by_cases h2 : idx grid_a_fine (Naf - 1) ≤
          np_interp grid_a (pol_sav i_z) (grid_a_fine i_a)
      · rw [if_pos h2]
        simp only []
        omega
      · rw [if_neg h2]
        push_neg at h2
        obtain ⟨_, hj2, _, _⟩ := count_le_bracket hgaf hNaf0 h1 h2
        exact hj2

/-- C9: for every savings policy whose values are all at least the first
point of the coarse asset grid, and every row-stochastic income transition
matrix pi, every row of the (Nz*Naf) x (Nz*Naf) transition matrix Q built
by the eigenvector engine sums exactly to one, so the in-code assertion
"Transition matrix error: Rows do not sum to 1" never fires.  (The grids
are strictly increasing with a shared minimum, as produced by make_grid.) -/
theorem eigenQ_rows_sum_one {Nz Na Naf : ℕ} {grid_a : Fin Na → ℚ}
    {grid_a_fine : Fin Naf → ℚ} {pol_sav : Fin Nz → Fin Na → ℚ}
    {pi : Fin Nz → Fin Nz → ℚ}
    (hga : ∀ i j : Fin Na, i < j → grid_a i < grid_a j)
    (hgaf : ∀ i j : Fin Naf, i < j → grid_a_fine i < grid_a_fine j)
    (hNa : 0 < Na) (hNaf : 2 ≤ Naf)
    (hshare : idx grid_a_fine 0 = idx grid_a 0)
    (hpol : ∀ (z : Fin Nz) (a : Fin Na), idx grid_a 0 ≤ pol_sav z a)
    (hpirow : ∀ iz, ∑ izz, pi iz izz = 1)
    (rc : Fin (Nz * Naf)) :
    ∑ c, eigenQ grid_a grid_a_fine pol_sav pi rc c = 1 := by
  simp only [eigenQ, Matrix.of_apply]
  exact eigenQrow_sum hga hgaf hNa hNaf hshare hpol hpirow _ _

theorem eigenQ_rows_sum_one_witness :
    (∀ i j : Fin 2, i < j → grid01 i < grid01 j) ∧
    (0 : ℕ) < 2 ∧ (2 : ℕ) ≤ 2 ∧
    idx grid01 0 = idx grid01 0 ∧
    (∀ (z : Fin 2) (a : Fin 2), idx grid01 0 ≤ pol_w9 z a) ∧
    (∀ iz, ∑ izz, pi_model iz izz = 1) ∧
    ∑ c, eigenQ grid01 grid01 pol_w9 pi_model ⟨0, by norm_num⟩ c = 1 := by
  have hg : ∀ i j : Fin 2, i < j → grid01 i < grid01 j :=
    of_decide_eq_true (by with_unfolding_all rfl)
  have hp : ∀ (z : Fin 2) (a : Fin 2), idx grid01 0 ≤ pol_w9 z a :=
    of_decide_eq_true (by with_unfolding_all rfl)
  have hpi : ∀ iz, ∑ izz, pi_model iz izz = 1 :=
    of_decide_eq_true (by with_unfolding_all rfl)
  exact ⟨hg, by norm_num, le_refl 2, rfl, hp, hpi,
    eigenQ_rows_sum_one hg hg (by norm_num) (le_refl 2) rfl hp hpi _⟩

/-- C6: simulate_MonteCarlo's docstring promises a fatal error when more
than 1% of households sit at the maximum value of the grid, but the code
computes frac_outside = edge / grid_a.size, dividing by the number of grid
points instead of the number of households simN (and edge counts
agent-periods over all T periods, not distinct households).  Failing input:
a single household (simN = 1) starting at the top of the model's 200-point
grid under the keep-assets policy.  Its savings stay at the grid maximum
(conjunct one: sim_sav equals grid_a[199] = 100 for every agent), so 100%
of households are at the top edge and the documented check must raise; the
code computes frac_outside = 1/200 ≤ 1/100 and returns normally (conjunct
two). -/
theorem mc_grid_check_divergence :
    (∀ i : Fin 1,
      (mc_agent_step grid_a_model pol_id_model pi_model (draw_w6 i)
        (z0_w6 i) (a0_w6 i)).2.1 = idx grid_a_model 199) ∧
    mc_raises grid_a_model pol_id_model pi_model [draw_w6] z0_w6 a0_w6 =
      false := by
  constructor
  · exact of_decide_eq_true (by with_unfolding_all rfl)
  · exact of_decide_eq_true (by with_unfolding_all rfl)

end Aiyagari
